import Mathlib

/-!
# Verification of the multitables parallel read engine

A shallow embedding of the core of the `multitables` package
(shared buffers, the shared ring queue, the reader front end, the
op algebra serialisation and the streamer submission loop) together
with proofs about the embedded operations.

Bytes are modelled as natural numbers below 256, machine integers as
`Nat`/`Int` with explicit wrapping where the source wraps, and fallible
operations return `Except` or pair their result with the unchanged state.
-/

namespace Multitables

/-- A byte, as stored in a shared memory region or a queue block. -/
abbrev Byte := Nat

/-! ## numpy_utils.py -/

/-- From `numpy_utils._calc_nbytes`: the number of bytes occupied by an
array of the given item size and shape (`dtype.itemsize * np.prod(shape)`;
the product of the empty shape is 1). -/
def calc_nbytes (itemsize : Nat) (shape : List Nat) : Nat :=
  itemsize * shape.prod

/-! ## shared_mem.py : SharedBuffer -/

namespace SharedMem

/-- The byte content of one shared memory region: a one-byte liveness
flag at offset 0 followed by `size_nbytes` payload bytes
(`self._flag = self._buf[:1]`, `self._ary = self._buf[1:]`). -/
structure SharedBuffer where
  flag : Byte
  payload : List Byte
  deriving Repr, DecidableEq

/-- The error raised by `SharedBuffer.asarray_direct` when the requested
array does not fit in the buffer. -/
inductive SharedMemoryError where
  | stageTooSmall
  deriving Repr, DecidableEq

/-- From `SharedBuffer.size`: the length of the payload view `self._ary`. -/
def SharedBuffer.size (b : SharedBuffer) : Nat := b.payload.length

/-- From `SharedBuffer.asarray_direct`: raise `SharedMemoryError` when the
requested array is larger than the buffer, otherwise yield a typed view over
the first `nbytes` payload bytes (`np.array(self._ary[:nbytes], copy=False)`).
The view is modelled by the byte list it exposes. -/
def SharedBuffer.asarray_direct (b : SharedBuffer) (itemsize : Nat)
    (shape : List Nat) : Except SharedMemoryError (List Byte) :=
  let nbytes := calc_nbytes itemsize shape
  if b.size < nbytes then
    .error .stageTooSmall
  else
    .ok (b.payload.take nbytes)

/-- A numpy array value handed to `SharedBuffer.set_to`: its dtype item
size, its shape, and its raw bytes.  For an actual ndarray the raw byte
count equals `itemsize * prod(shape)`; that well-formedness is a hypothesis
of the theorems below. -/
structure NpValue where
  itemsize : Nat
  shape : List Nat
  data : List Byte
  deriving Repr, DecidableEq

/-- From `SharedBuffer.set_to`: enter `asarray_direct(value.dtype,
value.shape)` and assign `ary[...] = value`, i.e. overwrite the first
`value.nbytes` payload bytes with the bytes of `value`.  On failure the
buffer is returned unchanged alongside the error. -/
def SharedBuffer.set_to (b : SharedBuffer) (v : NpValue) :
    SharedBuffer × Option SharedMemoryError :=
  let nbytes := calc_nbytes v.itemsize v.shape
  if b.size < nbytes then
    (b, some .stageTooSmall)
  else
    ({ b with payload := v.data ++ b.payload.drop nbytes }, none)

/-! ### Master/attacher lifecycle (teardown order) -/

/-- The state of the named region itself, shared by every handle mapped
to it: the liveness flag byte at offset 0 and whether the name is still
linked in the system namespace. -/
structure Region where
  flag : Byte
  linked : Bool
  deriving Repr, DecidableEq

/-- One process-local handle over a region (`SharedBuffer.__init__`
captures `master`, the mapped views, and the descriptor in the `cleanup`
closure). -/
structure Handle where
  master : Bool
  hasViews : Bool
  fdOpen : Bool
  cleanedUp : Bool
  deriving Repr, DecidableEq

/-- An observable teardown step performed by the `cleanup` closure. -/
inductive TeardownEvent where
  | setFlag
  | releaseViews
  | closeFd
  | unlinkName
  deriving Repr, DecidableEq

/-- From the `cleanup` closure installed at the end of
`SharedBuffer.__init__`: the first call replaces itself with a no-op; then,
in order, `if master and self._flag is not None: self._flag[:] = b'\x01'`,
`release()` (drop the memory views), `close()` (close the mapping and, when
the descriptor is still open, close it and set `self._fd = None`), and
`if master: unlink()` — whose POSIX body is itself guarded by
`if self._fd is not None: _shm_unlink(map_id)`, read *after* `close()`
has set the descriptor to `None` (the Windows `unlink` is `pass`).
Returns the new handle, the new region state and the ordered list of
system actions actually performed. -/
def cleanup (h : Handle) (r : Region) :
    Handle × Region × List TeardownEvent :=
  if h.cleanedUp then
    (h, r, [])
  else
    let flagEvents := if h.master && h.hasViews then [TeardownEvent.setFlag] else []
    let r1 := if h.master && h.hasViews then { r with flag := 1 } else r
    let h1 := { h with hasViews := false }
    let viewEvents := if h.hasViews then [TeardownEvent.releaseViews] else []
    let fdEvents := if h1.fdOpen then [TeardownEvent.closeFd] else []
    let h2 := { h1 with fdOpen := false }
    let unlinkEvents :=
      if h.master && h2.fdOpen then [TeardownEvent.unlinkName] else []
    let r2 := if h.master && h2.fdOpen then { r1 with linked := false } else r1
    ({ h2 with cleanedUp := true },
     r2,
     flagEvents ++ viewEvents ++ fdEvents ++ unlinkEvents)

/-- From `SharedBuffer._is_unlinked`, evaluated by an attaching process:
`True` when this handle has dropped its flag view, otherwise the value of
the shared flag byte compared against `b'\x01'`. -/
def is_unlinked (h : Handle) (r : Region) : Bool :=
  if ¬h.hasViews then true else r.flag == 1

end SharedMem

/-! ## reader.py : Reader front end and worker key retrieval -/

namespace Rdr

open SharedMem

/-- From `struct.pack('@I', n)`: the four bytes of an unsigned 32-bit
integer in native (little-endian) order.  `struct.error` is raised for
values outside the range, so the embedding is used under `n < 2^32`. -/
def pack_u32 (n : Nat) : List Byte :=
  [n % 256, n / 256 % 256, n / 2 ^ 16 % 256, n / 2 ^ 24 % 256]

/-- From `struct.unpack('@I', bs)`: recover the unsigned 32-bit integer
from four little-endian bytes. -/
def unpack_u32 (bs : List Byte) : Nat :=
  bs.getD 0 0 + 256 * bs.getD 1 0 + 2 ^ 16 * bs.getD 2 0 + 2 ^ 24 * bs.getD 3 0

/-- From `request.RequestDetails`: the request descriptor placed on the
request queue.  `key = none` models the absent inline-key field. -/
structure RequestDetails where
  req_id : Nat
  key : Option (List Byte)
  size_nbytes : Nat
  deriving Repr, DecidableEq

/-- A message on the request ring queue: either a serialized descriptor or
the `QueueClosed` sentinel. -/
inductive QMsg where
  | queueClosed
  | details (d : RequestDetails)
  deriving Repr, DecidableEq

/-- The mutable state of `Reader.Core` that the claims concern: the
`_close` event, the request queue contents, and the monotonic request id
counter.  The request ring queue was created as `SharedQueue(1024, 50)`,
so its element size is kept as a field. -/
structure Core where
  closed : Bool
  requestQueue : List QMsg
  next_req_id : Nat
  queueElemSize : Nat
  deriving Repr, DecidableEq

/-- From `Reader.Core.request`, the stage write performed when the key is
kept in the stage: `buf[-4:] = struct.pack('@I', len(keydata))` followed by
`buf[:len(keydata)] = keydata`. -/
def writeKeyToStage (payload : List Byte) (keydata : List Byte) : List Byte :=
  let step1 := payload.take (payload.length - 4) ++ pack_u32 keydata.length
  keydata ++ step1.drop keydata.length

/-- The error raised by `Reader.Core.request` on a closed reader. -/
inductive ReaderError where
  | closedReader
  deriving Repr, DecidableEq

/-- From `Reader.Core.request`: refuse requests on a closed reader;
serialize the key; decide the key placement
(`self._queue.elem_size() < (len(keydata) + 50) and len(keydata) <= (shm_buf.size() - 4)`
puts the key into the stage and leaves the descriptor's key field absent,
anything else carries it inline); allocate the request id; enqueue
the descriptor; and, in the stage-placement case, write the key and its
length into the stage payload.  Sizes are compared as Python ints, so the
comparison is carried out in `Int`.  Returns the outcome, the new core
state and the new stage payload. -/
def Core.request (s : Core) (keydata : List Byte) (stage : SharedBuffer) :
    Except ReaderError RequestDetails × Core × SharedBuffer :=
  if s.closed then
    (.error .closedReader, s, stage)
  else
    let inStage : Bool :=
      decide ((s.queueElemSize : Int) < keydata.length + 50) &&
      decide ((keydata.length : Int) ≤ (stage.size : Int) - 4)
    let details : RequestDetails :=
      { req_id := s.next_req_id
        key := if inStage then none else some keydata
        size_nbytes := stage.size }
    let s1 : Core :=
      { s with
        next_req_id := s.next_req_id + 1
        requestQueue := s.requestQueue ++ [QMsg.details details] }
    let stage1 : SharedBuffer :=
      if inStage then
        { stage with payload := writeKeyToStage stage.payload keydata }
      else stage
    (.ok details, s1, stage1)

/-- From `Reader.Core.close`: the first call sets the `_close` event and
puts the packed `QueueClosed` sentinel on the request queue; later calls
fall through the `if not self._close.is_set()` guard and change nothing
(`wait` only joins a thread and does not alter this state). -/
def Core.close (s : Core) : Core :=
  if s.closed then s
  else { s with closed := true, requestQueue := s.requestQueue ++ [QMsg.queueClosed] }

/-- From `_Reader__read_process`: a worker obtains the serialized key of a
request either from the inline descriptor field, or, when it is absent,
from the stage — `keysize, = struct.unpack('@I', buf[-4:])` then
`buf[:keysize]`. -/
def worker_retrieve_key (d : RequestDetails) (stagePayload : List Byte) :
    List Byte :=
  match d.key with
  | some k => k
  | none =>
      let keysize := unpack_u32 (stagePayload.drop (stagePayload.length - 4))
      stagePayload.take keysize

end Rdr

/-! ## streamer.py : block size probe and submission loop -/

namespace Streamer

/-- From `Streamer.__get_batch` with `length=None`: the fallback block
length.  `chunk0` is the outer dimension of `chunkshape` when the node is
chunked (`some 0` triggers the warning path and is treated as unchunked);
otherwise the length is `128*2**10 // row_nbytes` capped by the dataset
length `min(h5_node.shape[0], default_length)`. -/
def default_length (chunk0 : Option Nat) (row_nbytes : Nat) (len : Nat) : Nat :=
  match chunk0 with
  | none => min len (128 * 2 ^ 10 / row_nbytes)
  | some 0 => min len (128 * 2 ^ 10 / row_nbytes)
  | some c => c

/-- From `Streamer.get_queue`: the block size actually used is
`example.shape[0]` where `example = h5_node[:length]`, i.e. the default
length additionally truncated by the dataset length through slicing. -/
def get_queue_block_size (chunk0 : Option Nat) (row_nbytes : Nat)
    (len : Nat) : Nat :=
  min len (default_length chunk0 row_nbytes len)

/-- Modelled from the spec (§4.8, step 1) for comparison with the code:
"the chunk size along axis 0 if chunked, else `max(1, 128 KiB /
row_nbytes)` capped by dataset length". -/
def spec_block_size (chunk0 : Option Nat) (row_nbytes : Nat)
    (len : Nat) : Nat :=
  match chunk0 with
  | none => min len (max 1 (128 * 2 ^ 10 / row_nbytes))
  | some 0 => min len (max 1 (128 * 2 ^ 10 / row_nbytes))
  | some c => min len c

/-- An op issued by the submission loop.  `JoinedSlicesOp(path, field,
start1, stop1, None, 0, stop2, None)` is abbreviated by its bounds (both
step members are `None`), and `dataset[start:stop]` by its bounds. -/
inductive SpoolOp where
  | joined (start1 stop1 start2 stop2 : Int)
  | slice (start stop : Int)
  deriving Repr, DecidableEq

/-- The outcome of one iteration of the submission loop: either an op is
issued and the loop continues from `next`, or the loop terminates. -/
inductive SpoolStep where
  | emit (op : SpoolOp) (next : Int)
  | terminate
  deriving Repr, DecidableEq

/-- From `request_spool` in `Streamer.get_queue`: one iteration of the
submission loop at index `i` (Python ints, hence `Int`).  `start_idx,
stop_idx = i, i + block_size`; when `stop_idx` exceeds the dataset length,
a cyclic stream issues `JoinedSlicesOp(path, field, start_idx, split_idx,
None, 0, block_size - (split_idx - start_idx), None)` and continues from
that wrapped index; a non-cyclic stream issues the remainder slice
`dataset[start_idx:len]` when `remainder` is set and `start_idx < len`,
and otherwise breaks.  Otherwise `dataset[start_idx:stop_idx]` is issued
and the loop continues from `stop_idx`. -/
def spool_step (len block_size : Int) (cyclic remainder : Bool)
    (i : Int) : SpoolStep :=
  let start_idx := i
  let stop_idx := i + block_size
  if stop_idx > len then
    if cyclic then
      let split_idx := len
      let stop_idx2 := block_size - (split_idx - start_idx)
      .emit (.joined start_idx split_idx 0 stop_idx2) stop_idx2
    else
      let stop_idx2 := len
      if remainder && decide (start_idx < stop_idx2) then
        .emit (.slice start_idx stop_idx2) stop_idx2
      else
        .terminate
  else
    .emit (.slice start_idx stop_idx) stop_idx

end Streamer

/-! ## dataset_ops.py : index dispatch on `ColOp` and `ReadOpTable` -/

namespace DatasetOps

/-- A Python value used as an index key in `__getitem__`. -/
inductive PyKey where
  | kint (n : Int)
  | kstr (s : String)
  | kslice (start stop step : Option Int)
  | ktuple (ks : List PyKey)
  | klist (ns : List Int)
  | kintarray (ns : List Int)
  | kboolarray (bs : List Bool)
  | kellipsis

/-- `isinstance(key, slice)` on an index value. -/
def PyKey.isSliceInst : PyKey → Bool
  | .kslice _ _ _ => true
  | _ => false

/-- The test `k is slice` from `_is_simple_slice`: an identity comparison
against the builtin *type object* `slice`.  No index value modelled by
`PyKey` is that type object (a slice instance is not `is`-identical to its
type), so the test is false on this whole universe. -/
def PyKey.isTypeSliceObject : PyKey → Bool
  | _ => false

/-- `k == np.s_[:]`: equality with the full slice `slice(None, None, None)`. -/
def PyKey.eqFullSlice : PyKey → Bool
  | .kslice none none none => true
  | _ => false

/-- `k is Ellipsis`. -/
def PyKey.isEllipsisObject : PyKey → Bool
  | .kellipsis => true
  | _ => false

/-- The per-element test from `_is_simple_slice` on the trailing tuple
elements: `(k is slice and k == np.s_[:]) or k is Ellipsis`. -/
def simple_slice_tail_elem (k : PyKey) : Bool :=
  (k.isTypeSliceObject && k.eqFullSlice) || k.isEllipsisObject

/-- From `_is_simple_slice`: `isinstance(key, tuple) and len(key) > 0 and
isinstance(key[0], slice) and np.all([... for k in key[1:]])`. -/
def is_simple_slice (key : PyKey) : Bool :=
  match key with
  | .ktuple (k0 :: rest) => k0.isSliceInst && rest.all simple_slice_tail_elem
  | _ => false

/-- From `_is_coords`: `isinstance(key, list) or (isinstance(key,
np.ndarray) and np.issubdtype(key.dtype, np.integer))`. -/
def is_coords (key : PyKey) : Bool :=
  match key with
  | .klist _ => true
  | .kintarray _ => true
  | _ => false

/-- The result of one `__getitem__` dispatch on an op object, carrying the
fields of the constructed op. -/
inductive OpResult where
  | readScalarOpTable (path : String) (col : Option String) (idx : Int)
  | readOpTable (path : String) (col : Option String)
      (start stop step : Option Int)
  | coordOp (path : String) (col : Option String) (coords : PyKey)
  | colOpIndexed (path : String) (col : String) (index : List PyKey)
  | readOpTableIndexed (path : String) (col : Option String)
      (start stop step : Option Int) (index : List PyKey)

/-- From `ColOp.__getitem__` (with `OpBase.__getitem__` as the fallthrough
that appends the key to `self._index`): an `int` key builds
`ReadScalarOpTable(path, col, key)`; a `slice` key and a simple-slice tuple
build `ReadOpTable(path, col, start, stop, step)`; a coordinate key builds
`CoordOp(path, col, key)`; anything else records the key as a
post-index on the `ColOp`. -/
def colop_getitem (path : String) (col : String)
    (index : Option (List PyKey)) (key : PyKey) : OpResult :=
  match key with
  | .kint n => .readScalarOpTable path (some col) n
  | .kslice start stop step => .readOpTable path (some col) start stop step
  | _ =>
    if is_simple_slice key then
      match key with
      | .ktuple (.kslice start stop step :: _) =>
          .readOpTable path (some col) start stop step
      | _ => .colOpIndexed path col ((index.getD []) ++ [key])
    else if is_coords key then
      .coordOp path (some col) key
    else
      .colOpIndexed path col ((index.getD []) ++ [key])

/-- From `ReadOpTable.__getitem__`: a `str` key on a read op with no bound
column rebinds the column (`ReadOpTable(self._path, key, self._start,
self._stop, self._step)`); otherwise the key is appended to the post-index
list by `OpBase.__getitem__`. -/
def readoptable_getitem (path : String) (col : Option String)
    (start stop step : Option Int) (index : Option (List PyKey))
    (key : PyKey) : OpResult :=
  match key, col with
  | .kstr s, none => .readOpTable path (some s) start stop step
  | _, _ =>
      .readOpTableIndexed path col start stop step ((index.getD []) ++ [key])

end DatasetOps

/-! ## shared_queue.py : SharedQueue -/

namespace SharedQueue

/-- One block of the shared ring: `[payload(elem_size) | size_u64 |
flag_u8]`.  A flagged write leaves the stale payload and size field in
place (`_place_block` only writes them when the flag is clear). -/
structure Block where
  payload : List Byte
  sizeField : Nat
  flag : Bool
  deriving Repr, DecidableEq

/-- The all-zero block the shared array starts from
(`RawArray('b', block_size*queue_len)` zero-initialises). -/
def Block.zero (elem_size : Nat) : Block :=
  { payload := List.replicate elem_size 0, sizeField := 0, flag := false }

/-- The state of one `SharedQueue`: the element size and queue length
fixed at construction, the shared block array, the `tail` and `size`
shared integers, and the `multiprocessing.Queue` side channel (FIFO). -/
structure QState where
  elem_size : Nat
  queue_len : Nat
  blocks : List Block
  tail : Nat
  size : Nat
  side : List (List Byte)
  deriving Repr, DecidableEq

/-- From `SharedQueue.__init__`: a fresh queue. -/
def QState.init (elem_size queue_len : Nat) : QState :=
  { elem_size := elem_size
    queue_len := queue_len
    blocks := List.replicate queue_len (Block.zero elem_size)
    tail := 0
    size := 0
    side := [] }

/-- From `SharedQueue._place_block`: write at `head = (tail + size) %
queue_len`.  The flag byte is always written; when it is clear, the bytes
go to the start of the block payload and the length to the size field. -/
def QState.place_block (s : QState) (bytes : List Byte) (flag : Bool) :
    QState :=
  let head := (s.tail + s.size) % s.queue_len
  let old := s.blocks.getD head (Block.zero s.elem_size)
  let written : Block :=
    if flag then
      { old with flag := true }
    else
      { payload := bytes ++ old.payload.drop bytes.length
        sizeField := bytes.length
        flag := false }
  { s with blocks := s.blocks.set head written, size := s.size + 1 }

/-- From `SharedQueue._put_sync` (together with `_put_shared`): when the
queue is full the put fails with `queue.Full` (`none`; a blocking put
waits for this situation to clear, so successful puts are the ones
modelled).  An input larger than the element size writes a flagged block
and then pushes the bytes onto the side channel; otherwise the bytes are
written directly into the block. -/
def QState.put_sync (s : QState) (bytes : List Byte) : Option QState :=
  if s.queue_len ≤ s.size then
    none
  else if s.elem_size < bytes.length then
    let s1 := s.place_block [] true
    some { s1 with side := s1.side ++ [bytes] }
  else
    some (s.place_block bytes false)

/-- Advancing the tail on scope exit of `get_direct`:
`self._tail.value = (self._tail.value + 1) % self._queue_len` and
`self._size.value -= 1`. -/
def QState.advance (s : QState) : QState :=
  { s with tail := (s.tail + 1) % s.queue_len, size := s.size - 1 }

/-- From `SharedQueue.get_direct`: `none` when the queue is empty (the
`queue.Empty` path) or when a flagged block's bytes have not yet arrived
on the side channel (the code then blocks; under the single-producer
discipline of the claim this does not occur).  Otherwise the tail block is
decoded — a flagged block pops the side channel, an unflagged one yields
the first `sizeField` payload bytes — and the tail advances. -/
def QState.get (s : QState) : Option (List Byte × QState) :=
  if s.size = 0 then
    none
  else
    let b := s.blocks.getD s.tail (Block.zero s.elem_size)
    if b.flag then
      match s.side with
      | [] => none
      | m :: rest => some (m, QState.advance { s with side := rest })
    else
      some (b.payload.take b.sizeField, s.advance)

/-- An operation performed on the queue by the single producer / the
consumers of the claim. -/
inductive QOp where
  | put (m : List Byte)
  | get
  deriving Repr, DecidableEq

/-- Run a sequence of operations, collecting the bytes returned by the
`get_direct` calls in order.  `none` when an operation fails. -/
def exec : List QOp → QState → Option (QState × List (List Byte))
  | [], s => some (s, [])
  | .put m :: ops, s =>
      (s.put_sync m).bind fun s1 => exec ops s1
  | .get :: ops, s =>
      (s.get).bind fun r =>
        (exec ops r.2).map fun q => (q.1, r.1 :: q.2)

/-- The messages put by an operation sequence, in order. -/
def putsOf (ops : List QOp) : List (List Byte) :=
  ops.filterMap fun op =>
    match op with
    | .put m => some m
    | .get => none

/-- Reading the pending messages out of the ring without disturbing it:
the `n` blocks starting at slot `t % q`, each flagged block consuming the
next side-channel entry.  `none` when the side channel does not match the
flagged blocks exactly. -/
def decodeRing (blocks : List Block) (q : Nat) :
    Nat → Nat → List (List Byte) → Option (List (List Byte))
  | _, 0, side => if side.isEmpty then some [] else none
  | t, n + 1, side =>
      let b := blocks.getD (t % q) (Block.zero 0)
      if b.flag then
        match side with
        | [] => none
        | m :: rest => (decodeRing blocks q (t + 1) n rest).map (m :: ·)
      else
        (decodeRing blocks q (t + 1) n side).map
          (b.payload.take b.sizeField :: ·)

/-- The pending messages of a queue state. -/
def QState.pending (s : QState) : Option (List (List Byte)) :=
  decodeRing s.blocks s.queue_len s.tail s.size s.side

/-- The structural well-formedness the queue maintains: the block array
has `queue_len` slots, the tail stays in range, occupancy never exceeds
capacity, and every block payload has `elem_size` bytes. -/
def QState.WF (s : QState) : Prop :=
  s.blocks.length = s.queue_len ∧
  0 < s.queue_len ∧
  s.tail < s.queue_len ∧
  s.size ≤ s.queue_len ∧
  ∀ b ∈ s.blocks, b.payload.length = s.elem_size

end SharedQueue

/-! ## msgpack_ext.py : the extension registry

The msgpack library itself is an external collaborator; it is modelled by
its data model (`Wire` trees of ints, booleans, strings, bytes, nil,
lists, maps and typed extension nodes), with `create_registry`'s packers
and unpackers embedded as tree transformations.  Numpy integer dtypes and
their raw byte codecs (`tobytes` / `frombuffer`) are modelled explicitly
for the integer family. -/

namespace Msgpack

/-- The numpy integer dtype family used by scalars and arrays in index
keys. -/
inductive NpInt where
  | i8 | i16 | i32 | i64 | u8 | u16 | u32 | u64
  deriving Repr, DecidableEq

/-- Bit width of the dtype. -/
def NpInt.bits : NpInt → Nat
  | .i8 => 8 | .i16 => 16 | .i32 => 32 | .i64 => 64
  | .u8 => 8 | .u16 => 16 | .u32 => 32 | .u64 => 64

/-- Whether the dtype is signed. -/
def NpInt.isSigned : NpInt → Bool
  | .i8 | .i16 | .i32 | .i64 => true
  | .u8 | .u16 | .u32 | .u64 => false

/-- `dtype.itemsize` in bytes. -/
def NpInt.itemsize : NpInt → Nat
  | .i8 => 1 | .i16 => 2 | .i32 => 4 | .i64 => 8
  | .u8 => 1 | .u16 => 2 | .u32 => 4 | .u64 => 8

/-- `dtype.char` as its utf-8 byte (Linux character codes: `b h i l B H I
L`). -/
def NpInt.charCode : NpInt → Byte
  | .i8 => 98 | .i16 => 104 | .i32 => 105 | .i64 => 108
  | .u8 => 66 | .u16 => 72 | .u32 => 73 | .u64 => 76

/-- `numpy_utils._dtype_descr` on a non-record dtype: `dtype.char` as a
one-character string. -/
def NpInt.descr : NpInt → String
  | .i8 => "b" | .i16 => "h" | .i32 => "i" | .i64 => "l"
  | .u8 => "B" | .u16 => "H" | .u32 => "I" | .u64 => "L"

/-- `np.dtype(c)` on a one-byte dtype character. -/
def parseChar (c : Byte) : Option NpInt :=
  if c = 98 then some .i8 else if c = 104 then some .i16
  else if c = 105 then some .i32 else if c = 108 then some .i64
  else if c = 66 then some .u8 else if c = 72 then some .u16
  else if c = 73 then some .u32 else if c = 76 then some .u64
  else none

/-- `np.dtype(s)` on a dtype description string, for the integer family. -/
def parseDescr (s : String) : Option NpInt :=
  if s = "b" then some .i8 else if s = "h" then some .i16
  else if s = "i" then some .i32 else if s = "l" then some .i64
  else if s = "B" then some .u8 else if s = "H" then some .u16
  else if s = "I" then some .u32 else if s = "L" then some .u64
  else none

/-- Whether an integer is representable in the dtype. -/
def NpInt.inRange (t : NpInt) (v : Int) : Bool :=
  if t.isSigned then
    decide (-(2 ^ (t.bits - 1) : Int) ≤ v) && decide (v < (2 ^ (t.bits - 1) : Int))
  else
    decide ((0 : Int) ≤ v) && decide (v < (2 ^ t.bits : Int))

/-- `k` little-endian bytes of a natural number. -/
def bytesLE : Nat → Nat → List Byte
  | 0, _ => []
  | k + 1, n => n % 256 :: bytesLE k (n / 256)

/-- Reassemble a little-endian byte list into a natural number. -/
def natOfBytesLE (bs : List Byte) : Nat :=
  bs.foldr (fun b acc => b + 256 * acc) 0

/-- `scalar.tobytes()`: the two's-complement little-endian bytes of the
value. -/
def encScalar (t : NpInt) (v : Int) : List Byte :=
  bytesLE t.itemsize (v % (2 ^ t.bits : Int)).toNat

/-- `np.frombuffer` of one element: little-endian bytes back to the
integer, interpreting the top bit when the dtype is signed. -/
def decScalar (t : NpInt) (bs : List Byte) : Int :=
  let n := natOfBytesLE bs
  if t.isSigned && decide (2 ^ (t.bits - 1) ≤ n) then
    (n : Int) - (2 ^ t.bits : Int)
  else
    (n : Int)

/-- `ary.tobytes()` for a one-dimensional integer array. -/
def encArray (t : NpInt) (data : List Int) : List Byte :=
  (data.map (encScalar t)).flatten

/-- Decode `n` elements of dtype `t` from a byte list. -/
def decElems (t : NpInt) : Nat → List Byte → List Int
  | 0, _ => []
  | n + 1, bs => decScalar t (bs.take t.itemsize) :: decElems t n (bs.drop t.itemsize)

/-- `np.frombuffer(bs, dtype=t)`: fails unless the buffer length is a
multiple of the item size. -/
def decArray (t : NpInt) (bs : List Byte) : Option (List Int) :=
  if bs.length % t.itemsize = 0 then
    some (decElems t (bs.length / t.itemsize) bs)
  else
    none

mutual
/-- A Python value usable as (part of) an index key: ints, booleans,
strings, tuples, lists, slices, `Ellipsis`, one-dimensional numpy integer
arrays and numpy integer scalars. -/
inductive Value where
  | vint (n : Int)
  | vbool (b : Bool)
  | vstr (s : String)
  | vtuple (xs : ValueList)
  | vlist (xs : ValueList)
  | vslice (start stop step : Option Int)
  | vellipsis
  | varr (t : NpInt) (data : List Int)
  | vscalar (t : NpInt) (v : Int)
  deriving Repr
inductive ValueList where
  | nil
  | cons (v : Value) (vs : ValueList)
  deriving Repr
end

mutual
/-- The msgpack data model: what `msgpack.packb` with the registry's
`default` hook serialises.  An extension node carries the recursively
packed payload (`msgpack.ExtType(tid, self.pack(packer(obj)))`). -/
inductive Wire where
  | wint (n : Int)
  | wbool (b : Bool)
  | wstr (s : String)
  | wbytes (bs : List Byte)
  | wnil
  | wlist (ws : WireList)
  | wmap (kvs : WireMap)
  | wext (tid : Nat) (payload : Wire)
  deriving Repr
inductive WireList where
  | nil
  | cons (w : Wire) (ws : WireList)
  deriving Repr
inductive WireMap where
  | nil
  | cons (k v : Wire) (kvs : WireMap)
  deriving Repr
end

/-- Look up an integer key in a packed map (`data[i]`, `i in data`). -/
def lookupInt (kvs : WireMap) (i : Int) : Option Wire :=
  match kvs with
  | .nil => none
  | .cons (.wint j) v rest => if j = i then some v else lookupInt rest i
  | .cons _ _ rest => lookupInt rest i

/-- `slice`'s registered packer:
`{i: x for i, x in enumerate([obj.start, obj.stop, obj.step]) if x is not None}`. -/
def packSliceMap (start stop step : Option Int) : WireMap :=
  let add (i : Int) (x : Option Int) (rest : WireMap) : WireMap :=
    match x with
    | none => rest
    | some n => .cons (.wint i) (.wint n) rest
  add 0 start (add 1 stop (add 2 step .nil))

/-- `slice`'s registered unpacker reads member `i` of the description map
as `data[i] if i in data else None`; a present member of an index-key
slice is an int. -/
def readSliceMember (kvs : WireMap) (i : Int) : Option (Option Int) :=
  match lookupInt kvs i with
  | none => some none
  | some (.wint n) => some (some n)
  | some _ => none

/-- The default dtype `np.array` infers for a list of Python ints
(abstracting numpy's inference for the integer family: `int64` when every
element fits, else `uint64`).  The structural-identity relation below does
not depend on this choice. -/
def inferDefault (data : List Int) : NpInt :=
  if data.all (NpInt.inRange .i64) then .i64 else .u64

/-- `ary.tolist()` of a one-dimensional integer array, as seen by the
packer: a Python list of ints, serialised natively. -/
def packIntList : List Int → WireList
  | [] => .nil
  | n :: ns => .cons (.wint n) (packIntList ns)

/-- A `ValueList` of plain ints. -/
def intList : List Int → ValueList
  | [] => .nil
  | n :: ns => .cons (.vint n) (intList ns)

mutual

/-- `msgpack_registry.pack` on a value: native ints, booleans and strings;
extension type 0 for slices, 1 for `Ellipsis`, 2 for tuples (packed as the
list of their members), 3 for ndarrays (a `{0: descr, 1: shape, 2:
raw bytes}` map above 10 elements, `ary.tolist()` otherwise), 4 for numpy
scalars (`dtype.char` byte followed by `tobytes()`). -/
def packValue : Value → Wire
  | .vint n => .wint n
  | .vbool b => .wbool b
  | .vstr s => .wstr s
  | .vtuple xs => .wext 2 (.wlist (packList xs))
  | .vlist xs => .wlist (packList xs)
  | .vslice start stop step => .wext 0 (.wmap (packSliceMap start stop step))
  | .vellipsis => .wext 1 (.wstr "")
  | .varr t data =>
      if 10 < data.length then
        .wext 3 (.wmap (.cons (.wint 0) (.wstr t.descr)
          (.cons (.wint 1) (.wext 2 (.wlist (.cons (.wint data.length) .nil)))
            (.cons (.wint 2) (.wbytes (encArray t data)) .nil))))
      else
        .wext 3 (.wlist (packIntList data))
  | .vscalar t v => .wext 4 (.wbytes (t.charCode :: encScalar t v))

/-- Pack the members of a list or tuple. -/
def packList : ValueList → WireList
  | .nil => .nil
  | .cons v vs => .cons (packValue v) (packList vs)

end

/-- Extract the Python ints of an unpacked list (the elements
`np.array(data)` receives from a small-array description). -/
def intsOf : ValueList → Option (List Int)
  | .nil => some []
  | .cons (.vint n) vs => (intsOf vs).map (n :: ·)
  | .cons _ _ => none

mutual

/-- `msgpack_registry.unpack` on a wire tree: native scalars come back as
themselves, lists as lists (`use_list=True`), and each extension node is
decoded by the registered unpacker for its type id.  `none` models an
unpacking failure or a value outside the claim's universe. -/
def unpackValue : Wire → Option Value
  | .wint n => some (.vint n)
  | .wbool b => some (.vbool b)
  | .wstr s => some (.vstr s)
  | .wbytes _ => none
  | .wnil => none
  | .wlist ws => (unpackList ws).map .vlist
  | .wmap _ => none
  | .wext 0 (.wmap kvs) =>
      (readSliceMember kvs 0).bind fun start =>
        (readSliceMember kvs 1).bind fun stop =>
          (readSliceMember kvs 2).map fun step =>
            .vslice start stop step
  | .wext 1 _ => some .vellipsis
  | .wext 2 (.wlist ws) => (unpackList ws).map .vtuple
  | .wext 3 (.wlist ws) =>
      -- `np.array(data)` on the decoded list.
      (unpackList ws).bind fun vs =>
        (intsOf vs).map fun data => .varr (inferDefault data) data
  | .wext 3 (.wmap kvs) =>
      -- `np.frombuffer(data[2], dtype=np.dtype(data[0])).reshape(data[1])`.
      (match lookupInt kvs 0 with
        | some (.wstr d) => parseDescr d
        | _ => none).bind fun t =>
        (match lookupInt kvs 2 with
          | some (.wbytes bs) => decArray t bs
          | _ => none).bind fun data =>
          match lookupInt kvs 1 with
          | some (.wext 2 (.wlist (.cons (.wint n) .nil))) =>
              if n = data.length then some (.varr t data) else none
          | _ => none
  | .wext 4 (.wbytes (c :: rest)) =>
      -- `np.frombuffer(data[1:], dtype=np.dtype(data[:1]))[0]`.
      (parseChar c).bind fun t =>
        (decArray t rest).bind fun vals =>
          vals.head?.map fun v => .vscalar t v
  | .wext _ _ => none

/-- Unpack the members of a packed list. -/
def unpackList : WireList → Option ValueList
  | .nil => some .nil
  | .cons w ws =>
      (unpackValue w).bind fun v =>
        (unpackList ws).map fun vs => ValueList.cons v vs

end

mutual

/-- The structural-content identity of §6.3: equality of everything the
serialisation is required to preserve.  Tuples and lists are distinct
constructors (tuples must come back as tuples), slices compare all three
possibly-absent members, scalars compare their exact dtype, and arrays
compare their element lists (the dtype of a small array is not part of
the structural content; `tolist` erases it). -/
def structId : Value → Value → Bool
  | .vint n, .vint m => n == m
  | .vbool a, .vbool b => a == b
  | .vstr a, .vstr b => a == b
  | .vtuple xs, .vtuple ys => structIdList xs ys
  | .vlist xs, .vlist ys => structIdList xs ys
  | .vslice a b c, .vslice d e f => a == d && b == e && c == f
  | .vellipsis, .vellipsis => true
  | .varr _ d1, .varr _ d2 => d1 == d2
  | .vscalar t1 v1, .vscalar t2 v2 => t1 == t2 && v1 == v2
  | _, _ => false

/-- Member-wise structural identity. -/
def structIdList : ValueList → ValueList → Bool
  | .nil, .nil => true
  | .cons v vs, .cons w ws => structId v w && structIdList vs ws
  | _, _ => false

end

mutual

/-- Well-formedness of a value as an actual Python/numpy object: numpy
scalars and array elements are representable in their dtype. -/
def wfValue : Value → Bool
  | .vint _ => true
  | .vbool _ => true
  | .vstr _ => true
  | .vtuple xs => wfList xs
  | .vlist xs => wfList xs
  | .vslice _ _ _ => true
  | .vellipsis => true
  | .varr t data => data.all t.inRange
  | .vscalar t v => t.inRange v

/-- Well-formedness of the members. -/
def wfList : ValueList → Bool
  | .nil => true
  | .cons v vs => wfValue v && wfList vs

end

/-! ### The op variants and their `_pack_map` serialisation -/

/-- The eight op variants of `dataset_ops.py`, carrying the attributes
listed by each class's `_pack_map` (in `_pack_map` order).  The
`ReadScalarOp*` classes share `ReadOpBase`'s pack map. -/
inductive Op where
  | indexOp (path : String) (index : Option ValueList)
  | colOp (path : String) (index : Option ValueList) (col : String)
  | readOpTable (path : String) (index : Option ValueList)
      (col : Option String) (start stop step : Option Int)
  | readOpArray (path : String) (index : Option ValueList)
      (col : Option String) (start stop step : Option Int)
  | readScalarOpTable (path : String) (index : Option ValueList)
      (col : Option String) (start stop step : Option Int)
  | readScalarOpArray (path : String) (index : Option ValueList)
      (col : Option String) (start stop step : Option Int)
  | joinedSlicesOp (path : String) (index : Option ValueList)
      (col : Option String) (start1 stop1 step1 start2 stop2 step2 : Option Int)
  | coordOp (path : String) (index : Option ValueList)
      (col : Option String) (coords : Value)
  | sortOp (path : String) (index : Option ValueList)
      (sortby : String) (checkCSI : Bool) (col : Option String)
      (start stop step : Option Int)
  | whereOp (path : String) (index : Option ValueList)
      (condition : String) (condvars : List (String × Value))
      (start stop step : Option Int)
  deriving Repr

/-- Pack a possibly-`None` int attribute. -/
def packOptInt : Option Int → Wire
  | none => .wnil
  | some n => .wint n

/-- Pack a possibly-`None` string attribute. -/
def packOptStr : Option String → Wire
  | none => .wnil
  | some s => .wstr s

/-- Pack the `_index` attribute: `None` or the list of recorded keys. -/
def packIndex : Option ValueList → Wire
  | none => .wnil
  | some xs => .wlist (packList xs)

/-- Pack the `_condvars` dict of a `WhereOp`. -/
def packCondvars : List (String × Value) → WireMap
  | [] => .nil
  | (k, v) :: rest => .cons (.wstr k) (packValue v) (packCondvars rest)

/-- `MsgpackExtType.__msgpack__`: the description map `{i: getattr(self,
name) for i, name in enumerate(pack_map)}` (every attribute is included;
the `if i is not None` filter never drops one). -/
def mkFieldMap (i : Int) : List Wire → WireMap
  | [] => .nil
  | w :: ws => .cons (.wint i) w (mkFieldMap (i + 1) ws)

/-- `msgpack_registry.pack` on an op object: the extension node of the
class's type id (registration order of `create_registry` followed by the
`register_class` calls of `dataset_ops.py`) around the packed attribute
map. -/
def packOp : Op → Wire
  | .indexOp path index =>
      .wext 7 (.wmap (mkFieldMap 0 [.wstr path, packIndex index]))
  | .colOp path index col =>
      .wext 8 (.wmap (mkFieldMap 0 [.wstr path, packIndex index, .wstr col]))
  | .readOpTable path index col start stop step =>
      .wext 9 (.wmap (mkFieldMap 0 [.wstr path, packIndex index,
        packOptStr col, packOptInt start, packOptInt stop, packOptInt step]))
  | .readOpArray path index col start stop step =>
      .wext 10 (.wmap (mkFieldMap 0 [.wstr path, packIndex index,
        packOptStr col, packOptInt start, packOptInt stop, packOptInt step]))
  | .readScalarOpTable path index col start stop step =>
      .wext 11 (.wmap (mkFieldMap 0 [.wstr path, packIndex index,
        packOptStr col, packOptInt start, packOptInt stop, packOptInt step]))
  | .readScalarOpArray path index col start stop step =>
      .wext 12 (.wmap (mkFieldMap 0 [.wstr path, packIndex index,
        packOptStr col, packOptInt start, packOptInt stop, packOptInt step]))
  | .joinedSlicesOp path index col s1 e1 t1 s2 e2 t2 =>
      .wext 13 (.wmap (mkFieldMap 0 [.wstr path, packIndex index,
        packOptStr col, packOptInt s1, packOptInt e1, packOptInt t1,
        packOptInt s2, packOptInt e2, packOptInt t2]))
  | .coordOp path index col coords =>
      .wext 14 (.wmap (mkFieldMap 0 [.wstr path, packIndex index,
        packOptStr col, packValue coords]))
  | .sortOp path index sortby checkCSI col start stop step =>
      .wext 15 (.wmap (mkFieldMap 0 [.wstr path, packIndex index,
        .wstr sortby, .wbool checkCSI, packOptStr col,
        packOptInt start, packOptInt stop, packOptInt step]))
  | .whereOp path index condition condvars start stop step =>
      .wext 16 (.wmap (mkFieldMap 0 [.wstr path, packIndex index,
        .wstr condition, .wmap (packCondvars condvars),
        packOptInt start, packOptInt stop, packOptInt step]))

/-- `MsgpackExtType.__msgunpack__` reads attribute `i` as `data[i] if i in
data else None`; an absent attribute and a present `None` both come back
as `None` (`wnil`). -/
def getField (kvs : WireMap) (i : Int) : Wire :=
  (lookupInt kvs i).getD .wnil

/-- Read a possibly-`None` int attribute back. -/
def readOptInt : Wire → Option (Option Int)
  | .wnil => some none
  | .wint n => some (some n)
  | _ => none

/-- Read a possibly-`None` string attribute back. -/
def readOptStr : Wire → Option (Option String)
  | .wnil => some none
  | .wstr s => some (some s)
  | _ => none

/-- Read a mandatory string attribute back. -/
def readStr : Wire → Option String
  | .wstr s => some s
  | _ => none

/-- Read a boolean attribute back. -/
def readBool : Wire → Option Bool
  | .wbool b => some b
  | _ => none

/-- Read the `_index` attribute back: `None` or the unpacked key list. -/
def readIndex : Wire → Option (Option ValueList)
  | .wnil => some none
  | .wlist ws => (unpackList ws).map some
  | _ => none

/-- Read the entries of a `_condvars` map back. -/
def readCondvarsMap : WireMap → Option (List (String × Value))
  | .nil => some []
  | .cons (.wstr k) v rest =>
      (unpackValue v).bind fun val =>
        (readCondvarsMap rest).map fun tail => (k, val) :: tail
  | .cons _ _ _ => none

/-- Read the `_condvars` attribute back. -/
def readCondvars : Wire → Option (List (String × Value))
  | .wmap kvs => readCondvarsMap kvs
  | _ => none

/-- Unpack a serialized op: dispatch on the extension type id and rebuild
the attributes through `__msgunpack__`. -/
def unpackOp : Wire → Option Op
  | .wext 7 (.wmap kvs) =>
      (readStr (getField kvs 0)).bind fun path =>
        (readIndex (getField kvs 1)).map fun index =>
          .indexOp path index
  | .wext 8 (.wmap kvs) =>
      (readStr (getField kvs 0)).bind fun path =>
        (readIndex (getField kvs 1)).bind fun index =>
          (readStr (getField kvs 2)).map fun col =>
            .colOp path index col
  | .wext 9 (.wmap kvs) =>
      (readStr (getField kvs 0)).bind fun path =>
        (readIndex (getField kvs 1)).bind fun index =>
          (readOptStr (getField kvs 2)).bind fun col =>
            (readOptInt (getField kvs 3)).bind fun start =>
              (readOptInt (getField kvs 4)).bind fun stop =>
                (readOptInt (getField kvs 5)).map fun step =>
                  .readOpTable path index col start stop step
  | .wext 10 (.wmap kvs) =>
      (readStr (getField kvs 0)).bind fun path =>
        (readIndex (getField kvs 1)).bind fun index =>
          (readOptStr (getField kvs 2)).bind fun col =>
            (readOptInt (getField kvs 3)).bind fun start =>
              (readOptInt (getField kvs 4)).bind fun stop =>
                (readOptInt (getField kvs 5)).map fun step =>
                  .readOpArray path index col start stop step
  | .wext 11 (.wmap kvs) =>
      (readStr (getField kvs 0)).bind fun path =>
        (readIndex (getField kvs 1)).bind fun index =>
          (readOptStr (getField kvs 2)).bind fun col =>
            (readOptInt (getField kvs 3)).bind fun start =>
              (readOptInt (getField kvs 4)).bind fun stop =>
                (readOptInt (getField kvs 5)).map fun step =>
                  .readScalarOpTable path index col start stop step
  | .wext 12 (.wmap kvs) =>
      (readStr (getField kvs 0)).bind fun path =>
        (readIndex (getField kvs 1)).bind fun index =>
          (readOptStr (getField kvs 2)).bind fun col =>
            (readOptInt (getField kvs 3)).bind fun start =>
              (readOptInt (getField kvs 4)).bind fun stop =>
                (readOptInt (getField kvs 5)).map fun step =>
                  .readScalarOpArray path index col start stop step
  | .wext 13 (.wmap kvs) =>
      (readStr (getField kvs 0)).bind fun path =>
        (readIndex (getField kvs 1)).bind fun index =>
          (readOptStr (getField kvs 2)).bind fun col =>
            (readOptInt (getField kvs 3)).bind fun s1 =>
              (readOptInt (getField kvs 4)).bind fun e1 =>
                (readOptInt (getField kvs 5)).bind fun t1 =>
                  (readOptInt (getField kvs 6)).bind fun s2 =>
                    (readOptInt (getField kvs 7)).bind fun e2 =>
                      (readOptInt (getField kvs 8)).map fun t2 =>
                        .joinedSlicesOp path index col s1 e1 t1 s2 e2 t2
  | .wext 14 (.wmap kvs) =>
      (readStr (getField kvs 0)).bind fun path =>
        (readIndex (getField kvs 1)).bind fun index =>
          (readOptStr (getField kvs 2)).bind fun col =>
            (unpackValue (getField kvs 3)).map fun coords =>
              .coordOp path index col coords
  | .wext 15 (.wmap kvs) =>
      (readStr (getField kvs 0)).bind fun path =>
        (readIndex (getField kvs 1)).bind fun index =>
          (readStr (getField kvs 2)).bind fun sortby =>
            (readBool (getField kvs 3)).bind fun checkCSI =>
              (readOptStr (getField kvs 4)).bind fun col =>
                (readOptInt (getField kvs 5)).bind fun start =>
                  (readOptInt (getField kvs 6)).bind fun stop =>
                    (readOptInt (getField kvs 7)).map fun step =>
                      .sortOp path index sortby checkCSI col start stop step
  | .wext 16 (.wmap kvs) =>
      (readStr (getField kvs 0)).bind fun path =>
        (readIndex (getField kvs 1)).bind fun index =>
          (readStr (getField kvs 2)).bind fun condition =>
            (readCondvars (getField kvs 3)).bind fun condvars =>
              (readOptInt (getField kvs 4)).bind fun start =>
                (readOptInt (getField kvs 5)).bind fun stop =>
                  (readOptInt (getField kvs 6)).map fun step =>
                    .whereOp path index condition condvars start stop step
  | _ => none

/-- Structural identity of possibly-absent index lists. -/
def structIdIndex : Option ValueList → Option ValueList → Bool
  | none, none => true
  | some xs, some ys => structIdList xs ys
  | _, _ => false

/-- Structural identity of `_condvars` association lists. -/
def structIdCondvars : List (String × Value) → List (String × Value) → Bool
  | [], [] => true
  | (k1, v1) :: r1, (k2, v2) :: r2 =>
      k1 == k2 && structId v1 v2 && structIdCondvars r1 r2
  | _, _ => false

/-- Structural identity of ops: same variant, equal scalar attributes, and
structurally identical contained values. -/
def structIdOp : Op → Op → Bool
  | .indexOp p1 i1, .indexOp p2 i2 => p1 == p2 && structIdIndex i1 i2
  | .colOp p1 i1 c1, .colOp p2 i2 c2 =>
      p1 == p2 && structIdIndex i1 i2 && c1 == c2
  | .readOpTable p1 i1 c1 a1 b1 d1, .readOpTable p2 i2 c2 a2 b2 d2 =>
      p1 == p2 && structIdIndex i1 i2 && c1 == c2 && a1 == a2 && b1 == b2 && d1 == d2
  | .readOpArray p1 i1 c1 a1 b1 d1, .readOpArray p2 i2 c2 a2 b2 d2 =>
      p1 == p2 && structIdIndex i1 i2 && c1 == c2 && a1 == a2 && b1 == b2 && d1 == d2
  | .readScalarOpTable p1 i1 c1 a1 b1 d1, .readScalarOpTable p2 i2 c2 a2 b2 d2 =>
      p1 == p2 && structIdIndex i1 i2 && c1 == c2 && a1 == a2 && b1 == b2 && d1 == d2
  | .readScalarOpArray p1 i1 c1 a1 b1 d1, .readScalarOpArray p2 i2 c2 a2 b2 d2 =>
      p1 == p2 && structIdIndex i1 i2 && c1 == c2 && a1 == a2 && b1 == b2 && d1 == d2
  | .joinedSlicesOp p1 i1 c1 a1 b1 d1 e1 f1 g1,
    .joinedSlicesOp p2 i2 c2 a2 b2 d2 e2 f2 g2 =>
      p1 == p2 && structIdIndex i1 i2 && c1 == c2 && a1 == a2 && b1 == b2 &&
      d1 == d2 && e1 == e2 && f1 == f2 && g1 == g2
  | .coordOp p1 i1 c1 k1, .coordOp p2 i2 c2 k2 =>
      p1 == p2 && structIdIndex i1 i2 && c1 == c2 && structId k1 k2
  | .sortOp p1 i1 s1 x1 c1 a1 b1 d1, .sortOp p2 i2 s2 x2 c2 a2 b2 d2 =>
      p1 == p2 && structIdIndex i1 i2 && s1 == s2 && x1 == x2 && c1 == c2 &&
      a1 == a2 && b1 == b2 && d1 == d2
  | .whereOp p1 i1 s1 cv1 a1 b1 d1, .whereOp p2 i2 s2 cv2 a2 b2 d2 =>
      p1 == p2 && structIdIndex i1 i2 && s1 == s2 && structIdCondvars cv1 cv2 &&
      a1 == a2 && b1 == b2 && d1 == d2
  | _, _ => false

/-- Well-formedness of a possibly-absent index list. -/
def wfIndex : Option ValueList → Bool
  | none => true
  | some xs => wfList xs

/-- Well-formedness of a `_condvars` association list. -/
def wfCondvars : List (String × Value) → Bool
  | [] => true
  | (_, v) :: rest => wfValue v && wfCondvars rest

/-- Well-formedness of an op: every contained value is well-formed. -/
def wfOp : Op → Bool
  | .indexOp _ index => wfIndex index
  | .colOp _ index _ => wfIndex index
  | .readOpTable _ index _ _ _ _ => wfIndex index
  | .readOpArray _ index _ _ _ _ => wfIndex index
  | .readScalarOpTable _ index _ _ _ _ => wfIndex index
  | .readScalarOpArray _ index _ _ _ _ => wfIndex index
  | .joinedSlicesOp _ index _ _ _ _ _ _ _ => wfIndex index
  | .coordOp _ index _ coords => wfIndex index && wfValue coords
  | .sortOp _ index _ _ _ _ _ _ => wfIndex index
  | .whereOp _ index _ condvars _ _ _ => wfIndex index && wfCondvars condvars

end Msgpack

/-! ## Theorems -/

namespace SharedMem

/-- C4: for every `SharedBuffer` with payload capacity `C` and every
`(dtype, shape)`, `asarray_direct` raises `SharedMemoryError` exactly when
`itemsize × ∏shape` exceeds `C`, and otherwise yields a typed view over
exactly the first `itemsize × ∏shape` bytes of the payload (so a request
whose result would exceed its Stage capacity fails with
`SharedMemoryError`). -/
theorem asarray_direct_spec (b : SharedBuffer) (itemsize : Nat)
    (shape : List Nat) :
    (b.size < calc_nbytes itemsize shape ∧
      b.asarray_direct itemsize shape = .error .stageTooSmall) ∨
    (calc_nbytes itemsize shape ≤ b.size ∧
      b.asarray_direct itemsize shape =
        .ok (b.payload.take (calc_nbytes itemsize shape)) ∧
      (b.payload.take (calc_nbytes itemsize shape)).length =
        calc_nbytes itemsize shape) := by
  by_cases h : b.size < calc_nbytes itemsize shape
  · exact Or.inl ⟨h, by simp [SharedBuffer.asarray_direct, h]⟩
  · refine Or.inr ⟨Nat.le_of_not_lt h, ?_, ?_⟩
    · simp [SharedBuffer.asarray_direct, h]
    · have hc : calc_nbytes itemsize shape ≤ b.payload.length :=
        Nat.le_of_not_lt h
      simp [List.length_take, Nat.min_eq_left hc]

/-- C10: `set_to` modifies only the first `value.nbytes` payload bytes —
the flag byte and every payload byte at offset `value.nbytes` or beyond
keep their previous contents — and a `set_to` that raises
`SharedMemoryError` leaves the entire buffer unchanged. -/
theorem set_to_frame (b : SharedBuffer) (v : NpValue)
    (hwf : v.data.length = calc_nbytes v.itemsize v.shape) :
    (calc_nbytes v.itemsize v.shape ≤ b.size →
      (b.set_to v).2 = none ∧
      (b.set_to v).1.flag = b.flag ∧
      (b.set_to v).1.payload.length = b.payload.length ∧
      (b.set_to v).1.payload.take v.data.length = v.data ∧
      (∀ i, v.data.length ≤ i →
        (b.set_to v).1.payload[i]? = b.payload[i]?)) ∧
    (b.size < calc_nbytes v.itemsize v.shape →
      b.set_to v = (b, some .stageTooSmall)) := by
  constructor
  · intro hle
    have hle' : calc_nbytes v.itemsize v.shape ≤ b.payload.length := hle
    have hnlt : ¬ b.size < calc_nbytes v.itemsize v.shape := Nat.not_lt.mpr hle
    have hpay : (b.set_to v).1.payload =
        v.data ++ b.payload.drop (calc_nbytes v.itemsize v.shape) := by
      simp [SharedBuffer.set_to, hnlt]
    refine ⟨by simp [SharedBuffer.set_to, hnlt],
            by simp [SharedBuffer.set_to, hnlt], ?_, ?_, ?_⟩
    · rw [hpay]
      simp [List.length_append, List.length_drop, hwf]
      omega
    · rw [hpay]
      exact List.take_left v.data _
    · intro i hi
      rw [hpay]
      rw [List.getElem?_append_right (by omega)]
      rw [List.getElem?_drop]
      congr 1
      omega
  · intro hlt
    simp [SharedBuffer.set_to, hlt]

/-- Witness for `set_to_frame` at a concrete buffer and value. -/
theorem set_to_frame_witness :
    ((SharedBuffer.mk 7 [1, 2, 3, 4]).set_to (NpValue.mk 1 [2] [9, 8])).1.flag = 7 ∧
    ((SharedBuffer.mk 7 [1, 2, 3, 4]).set_to (NpValue.mk 1 [2] [9, 8])).1.payload[2]? =
      ([1, 2, 3, 4] : List Byte)[2]? := by
  have h := set_to_frame (SharedBuffer.mk 7 [1, 2, 3, 4])
    (NpValue.mk 1 [2] [9, 8]) (by decide)
  have h1 := h.1 (by decide)
  exact ⟨h1.2.1, h1.2.2.2.2 2 (by decide)⟩

/-- C8 (failing case): the claim says the master teardown ends by
unlinking the name, but `cleanup()` runs `close()` — which sets
`self._fd = None` — before `unlink()`, and `unlink()`'s body is guarded
by `if self._fd is not None`, so `_shm_unlink` never runs.  A master
close over a live region with mapped views and an open descriptor
performs exactly flag set, view release, descriptor close — no unlink —
and leaves the name linked; the attacher-visible consequence
(`_is_unlinked()` true afterwards, via the flag byte) does hold, and a
non-master close performs neither the flag write nor an unlink and
leaves the region untouched. -/
theorem teardown_never_unlinks_eval :
    (cleanup (Handle.mk true true true false) (Region.mk 0 true)).2.2 =
      [TeardownEvent.setFlag, TeardownEvent.releaseViews,
        TeardownEvent.closeFd] ∧
    (cleanup (Handle.mk true true true false) (Region.mk 0 true)).2.1.flag = 1 ∧
    (cleanup (Handle.mk true true true false) (Region.mk 0 true)).2.1.linked =
      true ∧
    is_unlinked (Handle.mk false true true false)
      (cleanup (Handle.mk true true true false) (Region.mk 0 true)).2.1 =
      true ∧
    (cleanup (Handle.mk false true true false) (Region.mk 0 true)).2.2 =
      [TeardownEvent.releaseViews, TeardownEvent.closeFd] ∧
    (cleanup (Handle.mk false true true false) (Region.mk 0 true)).2.1 =
      Region.mk 0 true := by
  decide

end SharedMem

namespace Rdr

/-- C9: `close` is idempotent — the first call sets the closed flag and
enqueues the `QueueClosed` sentinel exactly once, later calls change
nothing — and a `request` on a closed reader raises and enqueues
nothing. -/
theorem close_idempotent_and_refusing (s : Core) (keydata : List Byte)
    (stage : SharedMem.SharedBuffer) :
    Core.close (Core.close s) = Core.close s ∧
    (Core.close s).closed = true ∧
    (Core.close s).requestQueue =
      s.requestQueue ++ (if s.closed then [] else [QMsg.queueClosed]) ∧
    Core.request (Core.close s) keydata stage =
      (.error .closedReader, Core.close s, stage) := by
  by_cases h : s.closed
  · refine ⟨?_, ?_, ?_, ?_⟩ <;> simp [Core.close, Core.request, h]
  · refine ⟨?_, ?_, ?_, ?_⟩ <;> simp [Core.close, Core.request, h]

end Rdr

namespace Streamer

/-- C7: the code does not apply the `max(1, ...)` floor the claim states.
For an unchunked dataset whose row occupies 256 KiB (more than 128 KiB),
`get_queue` computes a block size of `128*2**10 // 262144 = 0`, while the
claimed rule gives `max(1, 0) = 1` capped by the length. -/
theorem block_size_no_floor_eval :
    get_queue_block_size none 262144 1000 = 0 ∧
    spec_block_size none 262144 1000 = 1 := by
  constructor <;> rfl

/-- C6: the per-iteration behaviour of the submission loop.  When `stop >
len` and the stream is cyclic, `JoinedSlicesOp(start, len, 0, stop-len)`
is issued and the loop continues from `stop-len`; when non-cyclic with
`remainder` set and `start < len`, the remainder slice
`dataset[start:len]` is issued and the loop then terminates; otherwise it
terminates.  When `stop ≤ len`, `dataset[start:stop]` is issued and
`start` advances to `stop`. -/
theorem spool_step_cases (len block_size : Int) (cyclic remainder : Bool)
    (i : Int) :
    (len < i + block_size → cyclic = true →
      spool_step len block_size cyclic remainder i =
        .emit (.joined i len 0 (i + block_size - len)) (i + block_size - len)) ∧
    (len < i + block_size → cyclic = false → remainder = true → i < len →
      spool_step len block_size cyclic remainder i =
        .emit (.slice i len) len ∧
      (0 < block_size →
        spool_step len block_size cyclic remainder len = .terminate)) ∧
    (len < i + block_size → cyclic = false → ¬(remainder = true ∧ i < len) →
      spool_step len block_size cyclic remainder i = .terminate) ∧
    (i + block_size ≤ len →
      spool_step len block_size cyclic remainder i =
        .emit (.slice i (i + block_size)) (i + block_size)) := by
  refine ⟨?_, ?_, ?_, ?_⟩
  · intro hgt hcyc
    have : block_size - (len - i) = i + block_size - len := by ring
    simp [spool_step, hcyc, if_pos (by omega : len < i + block_size), this]
  · intro hgt hcyc hrem hlt
    constructor
    · simp [spool_step, hcyc, hrem, if_pos (by omega : len < i + block_size), hlt]
    · intro hbs
      simp only [spool_step, hcyc, hrem]
      rw [if_pos (by omega : len < len + block_size)]
      simp
  · intro hgt hcyc hnot
    by_cases hrem : remainder
    · have hnlt : ¬ i < len := fun hlt => hnot ⟨hrem, hlt⟩
      simp [spool_step, hcyc, hrem, if_pos (by omega : len < i + block_size), hnlt]
    · have hrem' : remainder = false := Bool.eq_false_iff.mpr hrem
      simp [spool_step, hcyc, hrem', if_pos (by omega : len < i + block_size)]
  · intro hle
    simp [spool_step, if_neg (by omega : ¬ len < i + block_size)]

/-- Witness for `spool_step_cases`: a cyclic wrap at `len = 10`,
`block_size = 4`, `i = 8`. -/
theorem spool_step_cases_witness :
    spool_step 10 4 true false 8 = .emit (.joined 8 10 0 2) 2 := by
  have h := spool_step_cases 10 4 true false 8
  exact h.1 (by decide) rfl

end Streamer

namespace DatasetOps

/-- C5 (failing case): the docstring of `_is_simple_slice` promises that
trailing full slices (`:`) qualify, and the claim states that
`ColOp[(slice, :)]` fuses to a `ReadOp`; but the code tests `k is slice`
— identity with the builtin type object — which is false for every slice
instance, so a tuple with a trailing `:` falls through to the generic
materialising index path instead. -/
theorem colop_trailing_colon_eval :
    is_simple_slice
      (.ktuple [.kslice (some 30) (some 35) none, .kslice none none none]) =
      false ∧
    colop_getitem "/table" "A" none
      (.ktuple [.kslice (some 30) (some 35) none, .kslice none none none]) =
      .colOpIndexed "/table" "A"
        [.ktuple [.kslice (some 30) (some 35) none, .kslice none none none]] ∧
    is_simple_slice
      (.ktuple [.kslice (some 30) (some 35) none, .kellipsis]) = true ∧
    colop_getitem "/table" "A" none
      (.ktuple [.kslice (some 30) (some 35) none, .kellipsis]) =
      .readOpTable "/table" (some "A") (some 30) (some 35) none := by
  exact ⟨rfl, rfl, rfl, rfl⟩

end DatasetOps

namespace Rdr

/-- `struct.unpack('@I', ...)` inverts `struct.pack('@I', ...)` on the
32-bit range. -/
theorem unpack_pack_u32 (n : Nat) (h : n < 2 ^ 32) :
    unpack_u32 (pack_u32 n) = n := by
  simp [pack_u32, unpack_u32, List.getD]
  omega

/-- Writing the key into the stage tail preserves the payload length. -/
theorem writeKeyToStage_length (p ks : List Byte)
    (h : ks.length + 4 ≤ p.length) :
    (writeKeyToStage p ks).length = p.length := by
  simp [writeKeyToStage, pack_u32, List.length_append, List.length_drop,
    List.length_take]
  omega

/-- The key bytes sit at the start of the written stage payload. -/
theorem writeKeyToStage_take (p ks : List Byte) :
    (writeKeyToStage p ks).take ks.length = ks :=
  List.take_left ks _

/-- The last four bytes of the written stage payload are the packed key
length. -/
theorem writeKeyToStage_last4 (p ks : List Byte)
    (h : ks.length + 4 ≤ p.length) :
    (writeKeyToStage p ks).drop ((writeKeyToStage p ks).length - 4) =
      pack_u32 ks.length := by
  rw [writeKeyToStage_length p ks h]
  show (ks ++ (p.take (p.length - 4) ++ pack_u32 ks.length).drop ks.length).drop
      (p.length - 4) = pack_u32 ks.length
  have hsplit : p.length - 4 = ks.length + (p.length - 4 - ks.length) := by
    omega
  rw [hsplit, List.drop_append, List.drop_drop]
  have hidx : ks.length + (p.length - 4 - ks.length) = p.length - 4 := by
    omega
  rw [hidx]
  have htk : (p.take (p.length - 4)).length = p.length - 4 := by
    rw [List.length_take]
    omega
  exact List.drop_left' htk

/-- C1: the key placement rule of `Reader.Core.request` and its inversion
by the worker.  When the serialized key does not fit a ring-queue slot
with the 50-byte descriptor margin but fits the stage payload leaving 4
trailing bytes, the key goes to the start of the stage payload, the last
four payload bytes carry its length as an unsigned 32-bit native-endian
integer and the descriptor's key field is absent; otherwise the key is
carried inline.  In both cases the worker's key-retrieval step
reconstructs exactly the original serialized key bytes. -/
theorem request_key_roundtrip (s : Core) (ks : List Byte)
    (stage : SharedMem.SharedBuffer) (hopen : s.closed = false)
    (hks : ks.length < 2 ^ 32) :
    (((s.queueElemSize : Int) < (ks.length : Int) + 50 ∧
        (ks.length : Int) ≤ (stage.size : Int) - 4) →
      Core.request s ks stage =
        (.ok ⟨s.next_req_id, none, stage.size⟩,
         { s with next_req_id := s.next_req_id + 1,
                  requestQueue := s.requestQueue ++
                    [QMsg.details ⟨s.next_req_id, none, stage.size⟩] },
         { stage with payload := writeKeyToStage stage.payload ks }) ∧
      (writeKeyToStage stage.payload ks).take ks.length = ks ∧
      (writeKeyToStage stage.payload ks).drop
        ((writeKeyToStage stage.payload ks).length - 4) = pack_u32 ks.length ∧
      worker_retrieve_key ⟨s.next_req_id, none, stage.size⟩
        (writeKeyToStage stage.payload ks) = ks) ∧
    (¬ ((s.queueElemSize : Int) < (ks.length : Int) + 50 ∧
        (ks.length : Int) ≤ (stage.size : Int) - 4) →
      Core.request s ks stage =
        (.ok ⟨s.next_req_id, some ks, stage.size⟩,
         { s with next_req_id := s.next_req_id + 1,
                  requestQueue := s.requestQueue ++
                    [QMsg.details ⟨s.next_req_id, some ks, stage.size⟩] },
         stage) ∧
      worker_retrieve_key ⟨s.next_req_id, some ks, stage.size⟩
        stage.payload = ks) := by
  have hsz : (stage.size : Int) = (stage.payload.length : Int) := rfl
  constructor
  · intro h
    have h4 : ks.length + 4 ≤ stage.payload.length := by
      have := h.2
      rw [hsz] at this
      omega
    have hb : (decide ((s.queueElemSize : Int) < (ks.length : Int) + 50) &&
        decide ((ks.length : Int) ≤ (stage.size : Int) - 4)) = true := by
      rw [decide_eq_true h.1, decide_eq_true h.2]
      rfl
    refine ⟨?_, writeKeyToStage_take _ _, writeKeyToStage_last4 _ _ h4, ?_⟩
    · simp [Core.request, hopen, hb]
    · show (let keysize := unpack_u32 ((writeKeyToStage stage.payload ks).drop
          ((writeKeyToStage stage.payload ks).length - 4));
        (writeKeyToStage stage.payload ks).take keysize) = ks
      rw [writeKeyToStage_last4 _ _ h4, unpack_pack_u32 _ hks]
      exact writeKeyToStage_take _ _
  · intro h
    have hb : (decide ((s.queueElemSize : Int) < (ks.length : Int) + 50) &&
        decide ((ks.length : Int) ≤ (stage.size : Int) - 4)) = false := by
      rcases Decidable.not_and_iff_or_not.mp h with h1 | h1 <;>
        simp [decide_eq_false h1]
    refine ⟨?_, rfl⟩
    simp [Core.request, hopen, hb]

/-- Witness for `request_key_roundtrip`: a 6-byte key, a queue slot of 10
bytes and a 12-byte stage; the key is staged and recovered. -/
theorem request_key_roundtrip_witness :
    worker_retrieve_key ⟨0, none, 12⟩
      (writeKeyToStage (List.replicate 12 0) [1, 2, 3, 4, 5, 6]) =
      [1, 2, 3, 4, 5, 6] := by
  have h := request_key_roundtrip ⟨false, [], 0, 10⟩ [1, 2, 3, 4, 5, 6]
    ⟨0, List.replicate 12 0⟩ rfl (by decide)
  exact (h.1 ⟨by decide, by decide⟩).2.2.2

end Rdr

namespace SharedQueue

/-- `getD` after `set` at the written slot. -/
theorem getD_set_eq (l : List Block) (i : Nat) (a d : Block)
    (h : i < l.length) : (l.set i a).getD i d = a := by
  rw [List.getD_eq_getElem?_getD, List.getElem?_set_self h]
  rfl

/-- `getD` after `set` at a different slot. -/
theorem getD_set_ne (l : List Block) (i j : Nat) (a d : Block)
    (h : i ≠ j) : (l.set i a).getD j d = l.getD j d := by
  rw [List.getD_eq_getElem?_getD, List.getElem?_set_ne h,
    ← List.getD_eq_getElem?_getD]

/-- Decoding the ring is invariant under reducing the start slot modulo
the capacity. -/
theorem decodeRing_mod (blocks : List Block) (q : Nat) :
    ∀ (n t : Nat) (side : List (List Byte)),
      decodeRing blocks q (t % q) n side = decodeRing blocks q t n side := by
  intro n
  induction n with
  | zero => intro t side; rfl
  | succ n ih =>
    intro t side
    have hmm : t % q % q = t % q := Nat.mod_mod_of_dvd t (dvd_refl q)
    have hstep : (t % q + 1) % q = (t + 1) % q := by
      conv_lhs => rw [Nat.add_mod]
      conv_rhs => rw [Nat.add_mod]
      rw [hmm]
    have hrec : ∀ side2, decodeRing blocks q (t % q + 1) n side2 =
        decodeRing blocks q (t + 1) n side2 := by
      intro side2
      rw [← ih (t % q + 1) side2, hstep, ih (t + 1) side2]
    simp only [decodeRing, hmm, hrec]

/-- Two slots of the ring at distance `0 < k < q` are distinct. -/
theorem add_mod_ne (t k q : Nat) (hk0 : 0 < k) (hkq : k < q) :
    (t + k) % q ≠ t % q := by
  have hq : 0 < q := by omega
  intro he
  have h1 : (t + k) % q = (t % q + k) % q := by
    rw [Nat.add_mod t k q, Nat.add_mod (t % q) k q,
      Nat.mod_mod_of_dvd t (dvd_refl q)]
  have hrq : t % q < q := Nat.mod_lt _ hq
  by_cases hlt : t % q + k < q
  · rw [h1, Nat.mod_eq_of_lt hlt] at he
    omega
  · have h2 : (t % q + k) % q = t % q + k - q := by
      rw [Nat.mod_eq_sub_mod (by omega), Nat.mod_eq_of_lt (by omega)]
    rw [h1, h2] at he
    omega

/-- One-step unfolding of `decodeRing` at a flagged tail block with a
non-empty side channel. -/
theorem decodeRing_succ_flag (blocks : List Block) (q t n : Nat)
    (m0 : List Byte) (rest : List (List Byte))
    (hf : (blocks.getD (t % q) (Block.zero 0)).flag = true) :
    decodeRing blocks q t (n + 1) (m0 :: rest) =
      (decodeRing blocks q (t + 1) n rest).map (m0 :: ·) := by
  conv_lhs => unfold decodeRing
  rw [if_pos hf]

/-- One-step unfolding of `decodeRing` at an unflagged tail block. -/
theorem decodeRing_succ_noflag (blocks : List Block) (q t n : Nat)
    (side : List (List Byte))
    (hf : (blocks.getD (t % q) (Block.zero 0)).flag = false) :
    decodeRing blocks q t (n + 1) side =
      (decodeRing blocks q (t + 1) n side).map
        ((blocks.getD (t % q) (Block.zero 0)).payload.take
          (blocks.getD (t % q) (Block.zero 0)).sizeField :: ·) := by
  conv_lhs => unfold decodeRing
  rw [if_neg (by rw [hf]; exact Bool.false_ne_true)]

/-- Appending one message to the ring: writing block `nb` at slot
`(t + n) % q` (and its side-channel entry, when flagged) extends the
decoded pending sequence by the message `m` the block carries. -/
theorem decode_write (blocks : List Block) (q : Nat) (nb : Block)
    (m : List Byte) (sideExt : List (List Byte)) :
    ∀ (n t : Nat) (side : List (List Byte)) (p : List (List Byte)),
      blocks.length = q → n < q →
      decodeRing blocks q t n side = some p →
      ((nb.flag = true ∧ sideExt = [m]) ∨
        (nb.flag = false ∧ sideExt = [] ∧ nb.payload.take nb.sizeField = m)) →
      decodeRing (blocks.set ((t + n) % q) nb) q t (n + 1) (side ++ sideExt) =
        some (p ++ [m]) := by
  intro n
  induction n with
  | zero =>
    intro t side p hlen hn hdec hnb
    have hq : 0 < q := hn
    have hside : side = [] ∧ p = [] := by
      unfold decodeRing at hdec
      cases side with
      | nil => simpa using hdec
      | cons a as => simp at hdec
    obtain ⟨rfl, rfl⟩ := hside
    have hidx : t % q < (blocks.set ((t + 0) % q) nb).length := by
      rw [List.length_set, hlen]
      exact Nat.mod_lt _ hq
    have hget : (blocks.set ((t + 0) % q) nb).getD (t % q) (Block.zero 0) = nb := by
      have : (t + 0) % q = t % q := by rw [Nat.add_zero]
      rw [this]
      exact getD_set_eq _ _ _ _ (by rw [List.length_set] at hidx; exact hidx)
    rcases hnb with ⟨hf, rfl⟩ | ⟨hf, rfl, hm⟩
    · simp only [decodeRing, hget, hf, List.nil_append]
      rfl
    · simp only [decodeRing, hget, hf, List.nil_append, hm]
      rfl
  | succ n ih =>
    intro t side p hlen hn hdec hnb
    have hq : 0 < q := by omega
    have hne : (t + (n + 1)) % q ≠ t % q :=
      add_mod_ne t (n + 1) q (by omega) hn
    have hget : (blocks.set ((t + (n + 1)) % q) nb).getD (t % q) (Block.zero 0) =
        blocks.getD (t % q) (Block.zero 0) :=
      getD_set_ne _ _ _ _ _ hne
    have hpos : t + 1 + n = t + (n + 1) := by omega
    unfold decodeRing at hdec
    by_cases hf : (blocks.getD (t % q) (Block.zero 0)).flag
    · rw [if_pos hf] at hdec
      cases side with
      | nil => simp at hdec
      | cons m0 rest =>
        obtain ⟨p0, hp0, rfl⟩ := Option.map_eq_some'.mp hdec
        have hrec := ih (t + 1) rest p0 hlen (by omega) hp0 hnb
        rw [hpos] at hrec
        have hf2 : ((blocks.set ((t + (n + 1)) % q) nb).getD (t % q)
            (Block.zero 0)).flag = true := by
          rw [hget]; exact hf
        show decodeRing (blocks.set ((t + (n + 1)) % q) nb) q t (n + 1 + 1)
          ((m0 :: rest) ++ sideExt) = some ((m0 :: p0) ++ [m])
        rw [List.cons_append, decodeRing_succ_flag _ _ _ _ _ _ hf2, hrec]
        rfl
    · rw [if_neg hf] at hdec
      obtain ⟨p0, hp0, rfl⟩ := Option.map_eq_some'.mp hdec
      have hrec := ih (t + 1) side p0 hlen (by omega) hp0 hnb
      rw [hpos] at hrec
      have hf2 : ((blocks.set ((t + (n + 1)) % q) nb).getD (t % q)
          (Block.zero 0)).flag = false := by
        rw [hget]; exact Bool.not_eq_true _ ▸ hf
      show decodeRing (blocks.set ((t + (n + 1)) % q) nb) q t (n + 1 + 1)
        (side ++ sideExt) = some (((blocks.getD (t % q) (Block.zero 0)).payload.take
          (blocks.getD (t % q) (Block.zero 0)).sizeField :: p0) ++ [m])
      rw [decodeRing_succ_noflag _ _ _ _ _ hf2, hrec, hget]
      rfl

/-- A successful `put` preserves well-formedness and appends the message
to the pending sequence. -/
theorem put_sync_pending (s : QState) (m : List Byte) (s1 : QState)
    (p : List (List Byte)) (hwf : s.WF) (hdec : s.pending = some p)
    (hput : s.put_sync m = some s1) :
    s1.WF ∧ s1.pending = some (p ++ [m]) := by
  obtain ⟨hlen, hq, htail, hsize, hpay⟩ := hwf
  unfold QState.put_sync at hput
  by_cases hroom : s.queue_len ≤ s.size
  · rw [if_pos hroom] at hput
    exact absurd hput (by simp)
  rw [if_neg hroom] at hput
  have hroom' : s.size < s.queue_len := Nat.lt_of_not_le hroom
  have hhead : (s.tail + s.size) % s.queue_len < s.blocks.length := by
    rw [hlen]
    exact Nat.mod_lt _ hq
  have hold : s.blocks.getD ((s.tail + s.size) % s.queue_len)
      (Block.zero s.elem_size) ∈ s.blocks := by
    rw [List.getD_eq_getElem _ _ hhead]
    exact List.getElem_mem hhead
  by_cases hbig : s.elem_size < m.length
  · rw [if_pos hbig] at hput
    set old := s.blocks.getD ((s.tail + s.size) % s.queue_len)
      (Block.zero s.elem_size) with hold_def
    have hs1 : s1 = { s with
        blocks := s.blocks.set ((s.tail + s.size) % s.queue_len)
          { old with flag := true },
        size := s.size + 1,
        side := s.side ++ [m] } := by
      simp only [QState.place_block] at hput
      exact (Option.some_injective _ hput).symm
    constructor
    · refine ⟨?_, ?_, ?_, ?_, ?_⟩ <;> rw [hs1]
      · simp [List.length_set, hlen]
      · exact hq
      · exact htail
      · simpa using hroom'
      · intro b hb
        rcases List.mem_or_eq_of_mem_set hb with hmem | rfl
        · exact hpay b hmem
        · exact hpay old hold
    · rw [hs1]
      show decodeRing (s.blocks.set ((s.tail + s.size) % s.queue_len)
          { old with flag := true }) s.queue_len s.tail (s.size + 1)
          (s.side ++ [m]) = some (p ++ [m])
      exact decode_write s.blocks s.queue_len { old with flag := true } m [m]
        s.size s.tail s.side p hlen hroom' hdec (Or.inl ⟨rfl, rfl⟩)
  · rw [if_neg hbig] at hput
    set old := s.blocks.getD ((s.tail + s.size) % s.queue_len)
      (Block.zero s.elem_size) with hold_def
    have hs1 : s1 = { s with
        blocks := s.blocks.set ((s.tail + s.size) % s.queue_len)
          { payload := m ++ old.payload.drop m.length,
            sizeField := m.length, flag := false },
        size := s.size + 1 } := by
      simp only [QState.place_block] at hput
      exact (Option.some_injective _ hput).symm
    constructor
    · refine ⟨?_, ?_, ?_, ?_, ?_⟩ <;> rw [hs1]
      · simp [List.length_set, hlen]
      · exact hq
      · exact htail
      · simpa using hroom'
      · intro b hb
        rcases List.mem_or_eq_of_mem_set hb with hmem | rfl
        · exact hpay b hmem
        · have hom : old.payload.length = s.elem_size := hpay old hold
          simp only [List.length_append, List.length_drop, hom]
          omega
    · rw [hs1]
      have hdw := decode_write s.blocks s.queue_len
        { payload := m ++ old.payload.drop m.length,
          sizeField := m.length, flag := false } m []
        s.size s.tail s.side p hlen hroom' hdec
        (Or.inr ⟨rfl, rfl, List.take_left m _⟩)
      rw [List.append_nil] at hdw
      exact hdw

/-- A successful `get_direct` yields the head of the pending sequence and
leaves the tail pending. -/
theorem get_pending (s : QState) (p : List (List Byte)) (hwf : s.WF)
    (hdec : s.pending = some p) (m : List Byte) (s1 : QState)
    (hget : s.get = some (m, s1)) :
    ∃ pt, p = m :: pt ∧ s1.WF ∧ s1.pending = some pt := by
  obtain ⟨hlen, hq, htail, hsize, hpay⟩ := hwf
  unfold QState.get at hget
  by_cases hsz : s.size = 0
  · rw [if_pos hsz] at hget
    exact absurd hget (by simp)
  rw [if_neg hsz] at hget
  obtain ⟨k, hk⟩ : ∃ k, s.size = k + 1 := ⟨s.size - 1, by omega⟩
  have htq : s.tail % s.queue_len = s.tail := Nat.mod_eq_of_lt htail
  have hbeq : s.blocks.getD (s.tail % s.queue_len) (Block.zero 0) =
      s.blocks.getD s.tail (Block.zero s.elem_size) := by
    rw [htq]
    have h1 : s.tail < s.blocks.length := by rw [hlen]; exact htail
    rw [List.getD_eq_getElem _ _ h1, List.getD_eq_getElem _ _ h1]
  have hdec' : decodeRing s.blocks s.queue_len s.tail (k + 1) s.side = some p := by
    rw [← hk]
    exact hdec
  unfold decodeRing at hdec'
  rw [hbeq] at hdec'
  have hwf1 : ∀ side2, (QState.advance { s with side := side2 }).WF := by
    intro side2
    refine ⟨hlen, hq, Nat.mod_lt _ hq, by simp [QState.advance]; omega, hpay⟩
  by_cases hf : (s.blocks.getD s.tail (Block.zero s.elem_size)).flag
  · rw [if_pos hf] at hdec'
    rw [if_pos hf] at hget
    cases hside : s.side with
    | nil =>
      rw [hside] at hdec'
      simp at hdec'
    | cons m0 rest =>
      rw [hside] at hdec' hget
      obtain ⟨p0, hp0, rfl⟩ := Option.map_eq_some'.mp hdec'
      obtain ⟨rfl, rfl⟩ : m0 = m ∧ QState.advance { s with side := rest } = s1 := by
        have := Option.some_injective _ hget
        exact ⟨congrArg Prod.fst this, congrArg Prod.snd this⟩
      refine ⟨p0, rfl, hwf1 rest, ?_⟩
      have hpe : (QState.advance { s with side := rest }).pending =
          decodeRing s.blocks s.queue_len ((s.tail + 1) % s.queue_len)
            (s.size - 1) rest := rfl
      rw [hpe, hk, Nat.add_sub_cancel, decodeRing_mod]
      exact hp0
  · rw [if_neg hf] at hdec'
    rw [if_neg hf] at hget
    obtain ⟨p0, hp0, rfl⟩ := Option.map_eq_some'.mp hdec'
    obtain ⟨rfl, rfl⟩ :
        (s.blocks.getD s.tail (Block.zero s.elem_size)).payload.take
          (s.blocks.getD s.tail (Block.zero s.elem_size)).sizeField = m ∧
        s.advance = s1 := by
      have := Option.some_injective _ hget
      exact ⟨congrArg Prod.fst this, congrArg Prod.snd this⟩
    refine ⟨p0, rfl, ?_, ?_⟩
    · have := hwf1 s.side
      simpa [QState.advance] using this
    · have hpe : (QState.advance s).pending =
          decodeRing s.blocks s.queue_len ((s.tail + 1) % s.queue_len)
            (s.size - 1) s.side := rfl
      rw [hpe, hk, Nat.add_sub_cancel, decodeRing_mod]
      exact hp0

/-- Executing any operation sequence from a well-formed state: the
messages obtained are followed by the still-pending ones, in put order. -/
theorem exec_pending (ops : List QOp) :
    ∀ (s : QState) (p : List (List Byte)) (s1 : QState)
      (outs : List (List Byte)),
      s.WF → s.pending = some p → exec ops s = some (s1, outs) →
      ∃ rest, p ++ putsOf ops = outs ++ rest := by
  induction ops with
  | nil =>
    intro s p s1 outs hwf hdec hex
    refine ⟨p, ?_⟩
    have : outs = [] := by
      simp only [exec] at hex
      exact (congrArg Prod.snd (Option.some_injective _ hex)).symm
    rw [this]
    simp [putsOf]
  | cons op ops ih =>
    intro s p s1 outs hwf hdec hex
    cases op with
    | put m =>
      simp only [exec] at hex
      cases hput : s.put_sync m with
      | none => rw [hput] at hex; simp at hex
      | some s2 =>
        rw [hput] at hex
        rw [Option.some_bind] at hex
        obtain ⟨hwf2, hdec2⟩ := put_sync_pending s m s2 p hwf hdec hput
        obtain ⟨rest, hr⟩ := ih s2 (p ++ [m]) s1 outs hwf2 hdec2 hex
        refine ⟨rest, ?_⟩
        have hputs : putsOf (QOp.put m :: ops) = m :: putsOf ops := by
          simp [putsOf]
        rw [hputs, ← hr]
        simp
    | get =>
      simp only [exec] at hex
      cases hget : s.get with
      | none => rw [hget] at hex; simp at hex
      | some r =>
        rw [hget] at hex
        rw [Option.some_bind] at hex
        obtain ⟨⟨s2, outs2⟩, hex2, hpair⟩ := Option.map_eq_some'.mp hex
        obtain ⟨rfl, rfl⟩ : s2 = s1 ∧ r.1 :: outs2 = outs := by
          exact ⟨congrArg Prod.fst hpair, congrArg Prod.snd hpair⟩
        obtain ⟨pt, hp, hwf2, hdec2⟩ := get_pending s p hwf hdec r.1 r.2
          (by rw [← hget])
        obtain ⟨rest, hr⟩ := ih r.2 pt s2 outs2 hwf2 hdec2 hex2
        refine ⟨rest, ?_⟩
        have hputs : putsOf (QOp.get :: ops) = putsOf ops := by
          simp [putsOf]
        rw [hputs, hp]
        simpa using congrArg (r.1 :: ·) hr

/-- C2: per-producer FIFO with side-channel routing.  Every execution of
puts and gets from a fresh queue delivers the got byte strings as a
prefix of the put sequence, in order; and each successful put writes a
`flag=0` block recording the length (message fits the element size) or a
`flag=1` block with the bytes appended to the side channel (oversize
message). -/
theorem sharedqueue_fifo_and_routing (elem_size queue_len : Nat)
    (hq : 0 < queue_len) (ops : List QOp) (s1 : QState)
    (outs : List (List Byte))
    (hex : exec ops (QState.init elem_size queue_len) = some (s1, outs)) :
    (∃ rest, putsOf ops = outs ++ rest) ∧
    (∀ (s : QState) (m : List Byte) (s2 : QState),
      s.blocks.length = s.queue_len → 0 < s.queue_len →
      s.put_sync m = some s2 →
      (m.length ≤ s.elem_size →
        s2.side = s.side ∧
        (s2.blocks.getD ((s.tail + s.size) % s.queue_len)
          (Block.zero s.elem_size)).flag = false ∧
        (s2.blocks.getD ((s.tail + s.size) % s.queue_len)
          (Block.zero s.elem_size)).sizeField = m.length ∧
        (s2.blocks.getD ((s.tail + s.size) % s.queue_len)
          (Block.zero s.elem_size)).payload.take m.length = m) ∧
      (s.elem_size < m.length →
        s2.side = s.side ++ [m] ∧
        (s2.blocks.getD ((s.tail + s.size) % s.queue_len)
          (Block.zero s.elem_size)).flag = true)) := by
  constructor
  · have hwf : (QState.init elem_size queue_len).WF := by
      refine ⟨by simp [QState.init], hq, hq, by simp [QState.init], ?_⟩
      intro b hb
      simp only [QState.init] at hb
      rw [List.eq_of_mem_replicate hb]
      simp [Block.zero, QState.init]
    have hdec : (QState.init elem_size queue_len).pending = some [] := rfl
    obtain ⟨rest, hr⟩ := exec_pending ops _ [] s1 outs hwf hdec hex
    exact ⟨rest, by simpa using hr⟩
  · intro s m s2 hlen hq2 hput
    unfold QState.put_sync at hput
    by_cases hroom : s.queue_len ≤ s.size
    · rw [if_pos hroom] at hput
      exact absurd hput (by simp)
    rw [if_neg hroom] at hput
    have hhead : (s.tail + s.size) % s.queue_len < s.blocks.length := by
      rw [hlen]
      exact Nat.mod_lt _ hq2
    constructor
    · intro hfit
      have hbig : ¬ s.elem_size < m.length := Nat.not_lt.mpr hfit
      rw [if_neg hbig] at hput
      have hs2 : s2 = s.place_block m false := Option.some_injective _ hput.symm
      have hblk : s2.blocks.getD ((s.tail + s.size) % s.queue_len)
          (Block.zero s.elem_size) =
          { payload := m ++ (s.blocks.getD ((s.tail + s.size) % s.queue_len)
              (Block.zero s.elem_size)).payload.drop m.length,
            sizeField := m.length, flag := false } := by
        rw [hs2]
        simp only [QState.place_block]
        exact getD_set_eq _ _ _ _ hhead
      refine ⟨by rw [hs2]; rfl, ?_, ?_, ?_⟩
      · rw [hblk]
      · rw [hblk]
      · rw [hblk]
        exact List.take_left m _
    · intro hbig
      rw [if_pos hbig] at hput
      have hs2 : s2 = { s.place_block [] true with
          side := (s.place_block [] true).side ++ [m] } :=
        Option.some_injective _ hput.symm
      have hblk : s2.blocks.getD ((s.tail + s.size) % s.queue_len)
          (Block.zero s.elem_size) =
          { s.blocks.getD ((s.tail + s.size) % s.queue_len)
              (Block.zero s.elem_size) with flag := true } := by
        rw [hs2]
        simp only [QState.place_block]
        exact getD_set_eq _ _ _ _ hhead
      refine ⟨by rw [hs2]; rfl, by rw [hblk]⟩

/-- Witness for `sharedqueue_fifo_and_routing`: two puts (the second
oversize, routed through the side channel) followed by two gets on a
queue with 3-byte slots return the messages in put order. -/
theorem sharedqueue_fifo_witness :
    ∃ rest, putsOf [QOp.put [1, 2], QOp.put [3, 4, 5, 6], QOp.get, QOp.get] =
      [[1, 2], [3, 4, 5, 6]] ++ rest :=
  (sharedqueue_fifo_and_routing 3 2 (by decide)
    [QOp.put [1, 2], QOp.put [3, 4, 5, 6], QOp.get, QOp.get]
    ⟨3, 2, [⟨[1, 2, 0], 2, false⟩, ⟨[0, 0, 0], 0, true⟩], 0, 0, []⟩
    [[1, 2], [3, 4, 5, 6]] (by decide)).1

end SharedQueue

namespace Msgpack

/-- `bytesLE` produces exactly `k` bytes. -/
theorem bytesLE_length (k : Nat) : ∀ n, (bytesLE k n).length = k := by
  induction k with
  | zero => intro n; rfl
  | succ k ih => intro n; simp [bytesLE, ih]

/-- Reassembling the little-endian bytes of a value below `2^(8k)` gives
the value back. -/
theorem natOfBytesLE_bytesLE (k : Nat) :
    ∀ n, n < 2 ^ (8 * k) → natOfBytesLE (bytesLE k n) = n := by
  induction k with
  | zero =>
    intro n h
    simp only [Nat.mul_zero, pow_zero] at h
    interval_cases n
    rfl
  | succ k ih =>
    intro n h
    have hpow : 2 ^ (8 * (k + 1)) = 2 ^ (8 * k) * 256 := by
      rw [Nat.mul_succ, pow_add]
      norm_num
    rw [hpow] at h
    have hdiv : n / 256 < 2 ^ (8 * k) := by omega
    show n % 256 + 256 * natOfBytesLE (bytesLE k (n / 256)) = n
    rw [ih (n / 256) hdiv]
    omega

/-- `tobytes` followed by `frombuffer` is the identity on one in-range
scalar. -/
theorem decScalar_encScalar (t : NpInt) (v : Int) (h : t.inRange v = true) :
    decScalar t (encScalar t v) = v := by
  cases t <;>
  · simp [NpInt.inRange, NpInt.isSigned, NpInt.bits] at h
    simp [decScalar, encScalar, NpInt.itemsize, NpInt.bits, NpInt.isSigned,
      bytesLE, natOfBytesLE]
    omega

/-- `encScalar` produces `itemsize` bytes. -/
theorem encScalar_length (t : NpInt) (v : Int) :
    (encScalar t v).length = t.itemsize :=
  bytesLE_length _ _

/-- `encArray` on a cons. -/
theorem encArray_cons (t : NpInt) (v : Int) (vs : List Int) :
    encArray t (v :: vs) = encScalar t v ++ encArray t vs := by
  simp [encArray]

/-- `encArray` produces `length * itemsize` bytes. -/
theorem encArray_length (t : NpInt) (data : List Int) :
    (encArray t data).length = data.length * t.itemsize := by
  induction data with
  | nil => simp [encArray]
  | cons v vs ih =>
    rw [encArray_cons]
    simp [encScalar_length, ih]
    ring

/-- Element-wise decoding inverts `encArray` on in-range data. -/
theorem decElems_encArray (t : NpInt) (data : List Int)
    (h : ∀ v ∈ data, t.inRange v = true) :
    decElems t data.length (encArray t data) = data := by
  induction data with
  | nil => rfl
  | cons v vs ih =>
    show decElems t (vs.length + 1) (encArray t (v :: vs)) = v :: vs
    rw [encArray_cons]
    simp only [decElems]
    rw [List.take_left' (encScalar_length t v),
      List.drop_left' (encScalar_length t v)]
    rw [decScalar_encScalar t v (h v (by simp))]
    rw [ih (fun x hx => h x (by simp [hx]))]

/-- The item size is positive. -/
theorem itemsize_pos (t : NpInt) : 0 < t.itemsize := by
  cases t <;> decide

/-- `frombuffer` inverts `tobytes` on a one-dimensional in-range array. -/
theorem decArray_encArray (t : NpInt) (data : List Int)
    (h : ∀ v ∈ data, t.inRange v = true) :
    decArray t (encArray t data) = some data := by
  unfold decArray
  rw [encArray_length]
  rw [if_pos (Nat.mul_mod_left data.length t.itemsize)]
  rw [Nat.mul_div_cancel data.length (itemsize_pos t)]
  rw [decElems_encArray t data h]

/-- `frombuffer` of a single encoded scalar. -/
theorem decArray_encScalar (t : NpInt) (v : Int) (h : t.inRange v = true) :
    decArray t (encScalar t v) = some [v] := by
  unfold decArray
  rw [encScalar_length]
  rw [if_pos (Nat.mod_self t.itemsize)]
  rw [Nat.div_self (itemsize_pos t)]
  show some (decScalar t ((encScalar t v).take t.itemsize) ::
    decElems t 0 ((encScalar t v).drop t.itemsize)) = some [v]
  rw [← encScalar_length t v, List.take_length]
  rw [decScalar_encScalar t v h]
  rfl

/-- `parseChar` inverts `charCode`. -/
theorem parseChar_charCode (t : NpInt) : parseChar t.charCode = some t := by
  cases t <;> rfl

/-- `parseDescr` inverts `descr`. -/
theorem parseDescr_descr (t : NpInt) : parseDescr t.descr = some t := by
  cases t <;> decide

/-- Unpacking the packed `tolist` of an integer array. -/
theorem unpackList_packIntList (ns : List Int) :
    unpackList (packIntList ns) = some (intList ns) := by
  induction ns with
  | nil => rfl
  | cons n ns ih => simp [packIntList, unpackList, unpackValue, ih, intList]

/-- The ints of a plain int list. -/
theorem intsOf_intList (ns : List Int) : intsOf (intList ns) = some ns := by
  induction ns with
  | nil => rfl
  | cons n ns ih => simp [intList, intsOf, ih]

/-- The packed slice map reads back each member, absent members as
`None`. -/
theorem readSliceMember_pack (a b c : Option Int) :
    readSliceMember (packSliceMap a b c) 0 = some a ∧
    readSliceMember (packSliceMap a b c) 1 = some b ∧
    readSliceMember (packSliceMap a b c) 2 = some c := by
  cases a <;> cases b <;> cases c <;> exact ⟨rfl, rfl, rfl⟩

mutual

/-- Unpacking a packed well-formed value succeeds and returns a
structurally identical value (the dtype of a small array may normalise to
the default inferred one; everything else, including tuple-ness and
absent slice members, round-trips exactly). -/
theorem unpack_packValue (v : Value) (h : wfValue v = true) :
    ∃ w, unpackValue (packValue v) = some w ∧ structId w v = true := by
  cases v with
  | vint n => exact ⟨.vint n, rfl, by simp [structId]⟩
  | vbool b => exact ⟨.vbool b, rfl, by simp [structId]⟩
  | vstr s => exact ⟨.vstr s, rfl, by simp [structId]⟩
  | vellipsis => exact ⟨.vellipsis, rfl, rfl⟩
  | vtuple xs =>
    obtain ⟨ws, hws, hsi⟩ := unpack_packList xs (by simpa [wfValue] using h)
    exact ⟨.vtuple ws, by simp [packValue, unpackValue, hws],
      by simpa [structId] using hsi⟩
  | vlist xs =>
    obtain ⟨ws, hws, hsi⟩ := unpack_packList xs (by simpa [wfValue] using h)
    exact ⟨.vlist ws, by simp [packValue, unpackValue, hws],
      by simpa [structId] using hsi⟩
  | vslice a b c =>
    obtain ⟨h0, h1, h2⟩ := readSliceMember_pack a b c
    exact ⟨.vslice a b c, by simp [packValue, unpackValue, h0, h1, h2],
      by simp [structId]⟩
  | varr t data =>
    have hr : ∀ x ∈ data, t.inRange x = true := by
      simpa [wfValue, List.all_eq_true] using h
    by_cases hlen : 10 < data.length
    · refine ⟨.varr t data, ?_, by simp [structId]⟩
      simp only [packValue, if_pos hlen]
      simp [unpackValue, lookupInt, parseDescr_descr t, decArray_encArray t data hr]
    · refine ⟨.varr (inferDefault data) data, ?_, by simp [structId]⟩
      simp only [packValue, if_neg hlen]
      simp [unpackValue, unpackList_packIntList, intsOf_intList]
  | vscalar t x =>
    have hr : t.inRange x = true := by simpa [wfValue] using h
    refine ⟨.vscalar t x, ?_, by simp [structId]⟩
    simp [packValue, unpackValue, parseChar_charCode t, decArray_encScalar t x hr]

/-- Member-wise version of `unpack_packValue`. -/
theorem unpack_packList (vs : ValueList) (h : wfList vs = true) :
    ∃ ws, unpackList (packList vs) = some ws ∧ structIdList ws vs = true := by
  cases vs with
  | nil => exact ⟨.nil, rfl, rfl⟩
  | cons v vs =>
    have hv : wfValue v = true := by
      simp [wfList, Bool.and_eq_true] at h
      exact h.1
    have hvs : wfList vs = true := by
      simp [wfList, Bool.and_eq_true] at h
      exact h.2
    obtain ⟨w, hw, hsw⟩ := unpack_packValue v hv
    obtain ⟨ws, hws, hsws⟩ := unpack_packList vs hvs
    exact ⟨.cons w ws, by simp [packList, unpackList, hw, hws],
      by simp [structIdList, hsw, hsws]⟩

end

/-- A packed optional int attribute reads back as itself. -/
theorem readOptInt_packOptInt (x : Option Int) :
    readOptInt (packOptInt x) = some x := by
  cases x <;> rfl

/-- A packed optional string attribute reads back as itself. -/
theorem readOptStr_packOptStr (x : Option String) :
    readOptStr (packOptStr x) = some x := by
  cases x <;> rfl

/-- A packed well-formed `_index` attribute reads back structurally
identical. -/
theorem readIndex_packIndex (index : Option ValueList)
    (h : wfIndex index = true) :
    ∃ ix, readIndex (packIndex index) = some ix ∧
      structIdIndex ix index = true := by
  cases index with
  | none => exact ⟨none, rfl, rfl⟩
  | some xs =>
    obtain ⟨ws, hws, hsi⟩ := unpack_packList xs (by simpa [wfIndex] using h)
    exact ⟨some ws, by simp [packIndex, readIndex, hws],
      by simpa [structIdIndex] using hsi⟩

/-- A packed well-formed `_condvars` attribute reads back structurally
identical. -/
theorem readCondvars_packCondvars (cv : List (String × Value))
    (h : wfCondvars cv = true) :
    ∃ cv2, readCondvarsMap (packCondvars cv) = some cv2 ∧
      structIdCondvars cv2 cv = true := by
  induction cv with
  | nil => exact ⟨[], rfl, rfl⟩
  | cons kv rest ih =>
    obtain ⟨k, v⟩ := kv
    have hv : wfValue v = true := by
      simp [wfCondvars, Bool.and_eq_true] at h
      exact h.1
    have hrest : wfCondvars rest = true := by
      simp [wfCondvars, Bool.and_eq_true] at h
      exact h.2
    obtain ⟨w, hw, hsw⟩ := unpack_packValue v hv
    obtain ⟨cv2, hcv2, hscv2⟩ := ih hrest
    exact ⟨(k, w) :: cv2, by simp [packCondvars, readCondvarsMap, hw, hcv2],
      by simp [structIdCondvars, hsw, hscv2]⟩

set_option maxHeartbeats 2000000 in
/-- Unpacking a packed well-formed op succeeds and returns a structurally
identical op. -/
theorem unpack_packOp (op : Op) (h : wfOp op = true) :
    ∃ op2, unpackOp (packOp op) = some op2 ∧ structIdOp op2 op = true := by
  cases op with
  | indexOp path index =>
    obtain ⟨ix, hix, hsix⟩ := readIndex_packIndex index (by simpa [wfOp] using h)
    refine ⟨.indexOp path ix, ?_, ?_⟩
    · simp [packOp, unpackOp, mkFieldMap, getField, lookupInt, hix, readStr]
    · simp [structIdOp, hsix]
  | colOp path index col =>
    obtain ⟨ix, hix, hsix⟩ := readIndex_packIndex index (by simpa [wfOp] using h)
    refine ⟨.colOp path ix col, ?_, ?_⟩
    · simp [packOp, unpackOp, mkFieldMap, getField, lookupInt, hix, readStr]
    · simp [structIdOp, hsix]
  | readOpTable path index col start stop step =>
    obtain ⟨ix, hix, hsix⟩ := readIndex_packIndex index (by simpa [wfOp] using h)
    refine ⟨.readOpTable path ix col start stop step, ?_, ?_⟩
    · simp [packOp, unpackOp, mkFieldMap, getField, lookupInt, hix, readStr,
        readOptInt_packOptInt, readOptStr_packOptStr]
    · simp [structIdOp, hsix]
  | readOpArray path index col start stop step =>
    obtain ⟨ix, hix, hsix⟩ := readIndex_packIndex index (by simpa [wfOp] using h)
    refine ⟨.readOpArray path ix col start stop step, ?_, ?_⟩
    · simp [packOp, unpackOp, mkFieldMap, getField, lookupInt, hix, readStr,
        readOptInt_packOptInt, readOptStr_packOptStr]
    · simp [structIdOp, hsix]
  | readScalarOpTable path index col start stop step =>
    obtain ⟨ix, hix, hsix⟩ := readIndex_packIndex index (by simpa [wfOp] using h)
    refine ⟨.readScalarOpTable path ix col start stop step, ?_, ?_⟩
    · simp [packOp, unpackOp, mkFieldMap, getField, lookupInt, hix, readStr,
        readOptInt_packOptInt, readOptStr_packOptStr]
    · simp [structIdOp, hsix]
  | readScalarOpArray path index col start stop step =>
    obtain ⟨ix, hix, hsix⟩ := readIndex_packIndex index (by simpa [wfOp] using h)
    refine ⟨.readScalarOpArray path ix col start stop step, ?_, ?_⟩
    · simp [packOp, unpackOp, mkFieldMap, getField, lookupInt, hix, readStr,
        readOptInt_packOptInt, readOptStr_packOptStr]
    · simp [structIdOp, hsix]
  | joinedSlicesOp path index col s1 e1 t1 s2 e2 t2 =>
    obtain ⟨ix, hix, hsix⟩ := readIndex_packIndex index (by simpa [wfOp] using h)
    refine ⟨.joinedSlicesOp path ix col s1 e1 t1 s2 e2 t2, ?_, ?_⟩
    · simp [packOp, unpackOp, mkFieldMap, getField, lookupInt, hix, readStr,
        readOptInt_packOptInt, readOptStr_packOptStr]
    · simp [structIdOp, hsix]
  | coordOp path index col coords =>
    have hwi : wfIndex index = true := by
      simp [wfOp, Bool.and_eq_true] at h
      exact h.1
    have hwc : wfValue coords = true := by
      simp [wfOp, Bool.and_eq_true] at h
      exact h.2
    obtain ⟨ix, hix, hsix⟩ := readIndex_packIndex index hwi
    obtain ⟨w, hw, hsw⟩ := unpack_packValue coords hwc
    refine ⟨.coordOp path ix col w, ?_, ?_⟩
    · simp [packOp, unpackOp, mkFieldMap, getField, lookupInt, hix, readStr,
        readOptStr_packOptStr, hw]
    · simp [structIdOp, hsix, hsw]
  | sortOp path index sortby checkCSI col start stop step =>
    obtain ⟨ix, hix, hsix⟩ := readIndex_packIndex index (by simpa [wfOp] using h)
    refine ⟨.sortOp path ix sortby checkCSI col start stop step, ?_, ?_⟩
    · simp [packOp, unpackOp, mkFieldMap, getField, lookupInt, hix, readStr,
        readBool, readOptInt_packOptInt, readOptStr_packOptStr]
    · simp [structIdOp, hsix]
  | whereOp path index condition condvars start stop step =>
    have hwi : wfIndex index = true := by
      simp [wfOp, Bool.and_eq_true] at h
      exact h.1
    have hwc : wfCondvars condvars = true := by
      simp [wfOp, Bool.and_eq_true] at h
      exact h.2
    obtain ⟨ix, hix, hsix⟩ := readIndex_packIndex index hwi
    obtain ⟨cv2, hcv2, hscv2⟩ := readCondvars_packCondvars condvars hwc
    refine ⟨.whereOp path ix condition cv2 start stop step, ?_, ?_⟩
    · simp [packOp, unpackOp, mkFieldMap, getField, lookupInt, hix, readStr,
        readCondvars, hcv2, readOptInt_packOptInt]
    · simp [structIdOp, hsix, hscv2]

/-- C3: for every op and every index key built from ints, numpy integer
scalars, numpy integer arrays, strings, booleans, tuples, slices and
`Ellipsis`, unpacking the packed serialization returns a structurally
identical value: tuples come back as tuples (not lists) and slices
round-trip including their absent (`None`) members. -/
theorem serialisation_roundtrip :
    (∀ v : Value, wfValue v = true →
      ∃ w, unpackValue (packValue v) = some w ∧ structId w v = true) ∧
    (∀ op : Op, wfOp op = true →
      ∃ op2, unpackOp (packOp op) = some op2 ∧ structIdOp op2 op = true) :=
  ⟨unpack_packValue, unpack_packOp⟩

/-- Witness for `serialisation_roundtrip`: a concrete key (a tuple holding
a half-open slice and an ellipsis) and a concrete `ReadOpTable`. -/
theorem serialisation_roundtrip_witness :
    (wfValue (.vtuple (.cons (.vslice none (some 3) none)
        (.cons .vellipsis .nil))) = true ∧
      ∃ w, unpackValue (packValue (.vtuple (.cons (.vslice none (some 3) none)
          (.cons .vellipsis .nil)))) = some w ∧
        structId w (.vtuple (.cons (.vslice none (some 3) none)
          (.cons .vellipsis .nil))) = true) ∧
    (wfOp (.readOpTable "/t" none (some "A") (some 0) (some 5) none) = true ∧
      ∃ op2, unpackOp (packOp
          (.readOpTable "/t" none (some "A") (some 0) (some 5) none)) =
          some op2 ∧
        structIdOp op2
          (.readOpTable "/t" none (some "A") (some 0) (some 5) none) = true) :=
  ⟨⟨rfl, serialisation_roundtrip.1 _ rfl⟩,
   ⟨rfl, serialisation_roundtrip.2 _ rfl⟩⟩

end Msgpack

end Multitables
